import Mathlib

/-!
Physical page allocator with per-page reference counts (`kernel/kalloc.c`).

A shallow embedding of `kernel/kalloc.c`: physical memory is a byte map, the
free list is the intrusive singly linked list whose links live in the first
eight bytes of every free page, the reference-count table is a map from frame
numbers to 32-bit counters, and the two spinlocks are tracked as "held by the
running context" flags together with a log of the lock operations performed.
-/

namespace Kalloc

/-! ## Data model -/

/-- Bytes per page (`PGSIZE`). -/
def PGSIZE : Nat := 4096

/-- The two link-time constants `kalloc.c` takes from outside: `end`, the first
address after the kernel image (`extern char end[]`), and `PHYSTOP`, the top of
physical memory. -/
structure Layout where
  kend : Nat
  PHYSTOP : Nat

/-- Ways a call can fail to return: `panic("kfree")`, spinning forever on a
spinlock the running context already holds, or a loop that never leaves. -/
inductive Fault where
  | panic
  | deadlock
  | diverge
  deriving DecidableEq, Repr

/-- Lock operations, as recorded in the lock log. -/
inductive LockEvent where
  | acquireKmem
  | releaseKmem
  | acquireRef
  | releaseRef
  deriving DecidableEq, Repr

/-- The allocator state: byte-addressed physical memory, `kmem.freelist`,
`ref_count.reference_counter` (indexed by frame number), whether the running
context holds `kmem.lock` and `ref_count.lock`, and the lock operations done so
far (oldest first). -/
structure KState where
  mem : Nat → Nat
  freelist : Nat
  reference_counter : Nat → Nat
  kmem_lock : Bool
  ref_lock : Bool
  lockLog : List LockEvent

/-! ## Memory primitives -/

/-- C `memset(dst, c, n)`: the `n` bytes from `dst` become the byte `c`. -/
def memset (m : Nat → Nat) (dst c n : Nat) : Nat → Nat :=
  fun a => if dst ≤ a ∧ a < dst + n then c % 256 else m a

/-- Load of a 64-bit little-endian word (a `struct run *`) at address `a`. -/
def read64 (m : Nat → Nat) (a : Nat) : Nat :=
  m a % 256 + (m (a + 1) % 256) * 256 ^ 1 + (m (a + 2) % 256) * 256 ^ 2
    + (m (a + 3) % 256) * 256 ^ 3 + (m (a + 4) % 256) * 256 ^ 4
    + (m (a + 5) % 256) * 256 ^ 5 + (m (a + 6) % 256) * 256 ^ 6
    + (m (a + 7) % 256) * 256 ^ 7

/-- Store of the 64-bit little-endian word `v` at address `a`. -/
def write64 (m : Nat → Nat) (a v : Nat) : Nat → Nat :=
  fun x => if a ≤ x ∧ x < a + 8 then (v / 256 ^ (x - a)) % 256 else m x

/-- Modelled from the spec: `PGROUNDUP` (its definition is in `riscv.h`) "rounds
up to the next page boundary"; the sum is taken in 64-bit arithmetic. -/
def PGROUNDUP (a : Nat) : Nat :=
  ((a + PGSIZE - 1) % 2 ^ 64) / PGSIZE * PGSIZE

/-! ## Spinlocks -/

/-- Modelled from the spec: `acquire(&kmem.lock)` (defined in `spinlock.c`), a
non-reentrant busy-wait lock: taking it while the running context already holds
it never completes. -/
def acquireKmem (s : KState) : Except Fault KState :=
  if s.kmem_lock then .error .deadlock
  else .ok { s with kmem_lock := true, lockLog := s.lockLog ++ [.acquireKmem] }

/-- Modelled from the spec: `release(&kmem.lock)` (defined in `spinlock.c`). -/
def releaseKmem (s : KState) : KState :=
  { s with kmem_lock := false, lockLog := s.lockLog ++ [.releaseKmem] }

/-- The source's `ref_acquire`: `acquire(&ref_count.lock)`, with `acquire`
modelled from the spec as for `acquireKmem`. -/
def ref_acquire (s : KState) : Except Fault KState :=
  if s.ref_lock then .error .deadlock
  else .ok { s with ref_lock := true, lockLog := s.lockLog ++ [.acquireRef] }

/-- The source's `ref_release`: `release(&ref_count.lock)`. -/
def ref_release (s : KState) : KState :=
  { s with ref_lock := false, lockLog := s.lockLog ++ [.releaseRef] }

/-- Modelled from the spec: `holding(&ref_count.lock)` (defined in
`spinlock.c`) tells whether the current execution context holds the lock. -/
def holdingRef (s : KState) : Bool := s.ref_lock

/-! ## Reference-count table -/

/-- The source's `ref_counter_incr`: `reference_counter[pa/PGSIZE] += 1` on a
`uint`. -/
def ref_counter_incr (s : KState) (pa : Nat) : KState :=
  { s with
    reference_counter :=
      Function.update s.reference_counter (pa / PGSIZE)
        ((s.reference_counter (pa / PGSIZE) + 1) % 2 ^ 32) }

/-- The source's `ref_counter_decr`: returns `0` after decrementing a counter
that was above one, and `-1` after zeroing it otherwise. -/
def ref_counter_decr (s : KState) (pa : Nat) : Int × KState :=
  if s.reference_counter (pa / PGSIZE) > 1 then
    (0, { s with
          reference_counter :=
            Function.update s.reference_counter (pa / PGSIZE)
              (s.reference_counter (pa / PGSIZE) - 1) })
  else
    (-1, { s with
          reference_counter := Function.update s.reference_counter (pa / PGSIZE) 0 })

/-- The source's `ref_counter_get`. -/
def ref_counter_get (s : KState) (pa : Nat) : Nat :=
  s.reference_counter (pa / PGSIZE)

/-- The source's `ref_counter_set`: the `uint64` argument is stored in a
`uint` slot. -/
def ref_counter_set (s : KState) (pa n : Nat) : KState :=
  { s with
    reference_counter := Function.update s.reference_counter (pa / PGSIZE) (n % 2 ^ 32) }

/-! ## Free-list allocator -/

/-- The source's `kfree`. -/
def kfree (L : Layout) (s : KState) (pa : Nat) : Except Fault KState :=
  match ref_acquire s with
  | .error e => .error e
  | .ok s1 =>
    if (ref_counter_decr s1 pa).1 = 0 then
      .ok (ref_release (ref_counter_decr s1 pa).2)
    else
      let s2 := ref_release (ref_counter_decr s1 pa).2
      if pa % PGSIZE ≠ 0 ∨ pa < L.kend ∨ pa ≥ L.PHYSTOP then
        .error .panic
      else
        let s3 := { s2 with mem := memset s2.mem pa 1 PGSIZE }
        match acquireKmem s3 with
        | .error e => .error e
        | .ok s4 =>
          let s5 := { s4 with mem := write64 s4.mem pa s4.freelist }
          let s6 := { s5 with freelist := pa }
          .ok (releaseKmem s6)

/-- The source's `kalloc`: the result is the returned pointer (`0` for none)
and the new state. -/
def kalloc (s : KState) : Except Fault (Nat × KState) :=
  match acquireKmem s with
  | .error e => .error e
  | .ok s1 =>
    let r := s1.freelist
    let s2 := if r ≠ 0 then { s1 with freelist := read64 s1.mem r } else s1
    let s3 := releaseKmem s2
    let s4 := if r ≠ 0 then { s3 with mem := memset s3.mem r 5 PGSIZE } else s3
    if r ≠ 0 then
      if holdingRef s4 then
        .ok (r, ref_counter_set s4 r 1)
      else
        match ref_acquire s4 with
        | .error e => .error e
        | .ok s5 => .ok (r, ref_release (ref_counter_set s5 r 1))
    else
      .ok (r, s4)

/-- The loop of the source's `freerange`:
`for(; p + PGSIZE <= pa_end; p += PGSIZE) kfree(p);`. The pointer `p` has 64
bits, so `p + PGSIZE` is taken modulo `2 ^ 64`, in the test and in the step. The
first argument bounds the number of rounds: a loop that is still running when
the rounds are used up is reported as `Fault.diverge`. -/
def freerangeLoop (L : Layout) (pa_end : Nat) : Nat → Nat → KState → Except Fault KState
  | 0, _, _ => .error .diverge
  | rounds + 1, p, s =>
    if (p + PGSIZE) % 2 ^ 64 ≤ pa_end then
      match kfree L s p with
      | .error e => .error e
      | .ok s1 => freerangeLoop L pa_end rounds ((p + PGSIZE) % 2 ^ 64) s1
    else
      .ok s

/-- The source's `freerange`. The loop gets `2 ^ 64 / PGSIZE` rounds, one for
every page-aligned 64-bit address: its test depends on `p` alone and `p` is back
at its first value after that many rounds, so a loop that is still running then
never leaves through its test. -/
def freerange (L : Layout) (s : KState) (pa_start pa_end : Nat) :
    Except Fault KState :=
  freerangeLoop L pa_end (2 ^ 64 / PGSIZE) (PGROUNDUP pa_start) s

/-- Modelled from the spec: `initlock` (defined in `spinlock.c`) leaves the lock
free. This is `initlock(&kmem.lock, "kmem")`. -/
def initlockKmem (s : KState) : KState := { s with kmem_lock := false }

/-- Modelled from the spec: `initlock(&ref_count.lock, "ref_count")`. -/
def initlockRef (s : KState) : KState := { s with ref_lock := false }

/-- The source's `kinit`. -/
def kinit (L : Layout) (s : KState) : Except Fault KState :=
  match freerange L (initlockKmem s) L.kend L.PHYSTOP with
  | .error e => .error e
  | .ok s1 => .ok (initlockRef s1)

/-! ## Specification vocabulary -/

/-- Following the `next` links in memory `m` from the pointer `h` visits exactly
the nodes `l`, in order, and then reaches the null pointer. -/
def linked (m : Nat → Nat) : Nat → List Nat → Prop
  | h, [] => h = 0
  | h, p :: l => h = p ∧ p ≠ 0 ∧ linked m (read64 m p) l

/-- The free list of `s` is the list of pages `l`: the links starting at
`kmem.freelist` run through `l`, and every node is a page-aligned 64-bit
address. -/
def FreeList (s : KState) (l : List Nat) : Prop :=
  linked s.mem s.freelist l ∧ ∀ p ∈ l, p % PGSIZE = 0 ∧ p < 2 ^ 64

/-- The state the kernel image is loaded in: the zero-initialised globals of
`kalloc.c` (null free list, all counters zero, both locks free); the contents of
memory are arbitrary. -/
def Boot (s : KState) : Prop :=
  s.freelist = 0 ∧ (∀ f, s.reference_counter f = 0) ∧ s.kmem_lock = false ∧
    s.ref_lock = false

/-- The pages handed to the allocator by `freerange(pa_start, pa_end)`, lowest
first: `PGROUNDUP(pa_start) + k * PGSIZE` for every `k` with the whole page below
`pa_end`. The end of a page is computed in 64 bits: when `PGROUNDUP(pa_start)`
is the last page of the address space its end wraps to 0, the test of the loop
passes whatever `pa_end` is, and the range is that one page (the loop goes on
at address 0, which `kfree` refuses). -/
def rangePages (pa_start pa_end : Nat) : List Nat :=
  if PGROUNDUP pa_start + PGSIZE < 2 ^ 64 then
    (List.range ((pa_end - PGROUNDUP pa_start) / PGSIZE)).map
      (fun k => PGROUNDUP pa_start + k * PGSIZE)
  else
    [PGROUNDUP pa_start]

/-- What a call did, as seen by its caller. -/
inductive Event where
  /-- `kalloc()` returned `p` (`0` when no page was available). -/
  | alloc (p : Nat)
  /-- `ref_counter_incr(pa)` was called. -/
  | incr (pa : Nat)
  /-- `kfree(pa)` returned; `last` tells whether this release took the counter to
  zero, so that the page was reclaimed. -/
  | release (pa : Nat) (last : Bool)
  deriving DecidableEq, Repr

/-- The pages outstanding after a history of calls (newest call first): returned
by a `kalloc` and not released down to zero since. -/
def outstanding : List Event → List Nat
  | [] => []
  | .alloc p :: t => if p = 0 then outstanding t else p :: outstanding t
  | .incr _ :: t => outstanding t
  | .release pa last :: t =>
    if last then (outstanding t).filter (fun q => q ≠ pa) else outstanding t

/-- Single-threaded runs of the allocator: `Run L ok a b t s` says that after
`freerange(a, b)` on a boot state, the calls recorded in `t` (newest first) lead
to state `s`. `ref_counter_incr` is only called on a frame whose counter `c`
satisfies `ok c`, and `kfree` only on an outstanding page. -/
inductive Run (L : Layout) (ok : Nat → Prop) (a b : Nat) : List Event → KState → Prop
  | init {s0 s : KState} :
      Boot s0 → freerange L s0 a b = .ok s → Run L ok a b [] s
  | kalloc {t : List Event} {s s1 : KState} {p : Nat} :
      Run L ok a b t s → kalloc s = .ok (p, s1) → Run L ok a b (.alloc p :: t) s1
  | incr {t : List Event} {s : KState} (pa : Nat) :
      Run L ok a b t s → ok (s.reference_counter (pa / PGSIZE)) →
      Run L ok a b (.incr pa :: t) (ref_counter_incr s pa)
  | kfree {t : List Event} {s s1 : KState} (pa : Nat) :
      Run L ok a b t s → pa ∈ outstanding t → kfree L s pa = .ok s1 →
      Run L ok a b
        (.release pa (decide (s.reference_counter (pa / PGSIZE) ≤ 1)) :: t) s1

/-- The precondition of `ref_counter_incr` as the interface states it: the
caller already owns a reference. -/
def owned (c : Nat) : Prop := 1 ≤ c

/-- The precondition of `ref_counter_incr` under which the 32-bit counter does
not wrap around. -/
def ownedNoWrap (c : Nat) : Prop := 1 ≤ c ∧ c + 1 < 2 ^ 32

/-! ## Auxiliary definitions -/

/-- The `n` consecutive pages starting at `p`, lowest first. -/
def pagesUp (p n : Nat) : List Nat :=
  (List.range n).map (fun k => p + k * PGSIZE)

/-- The structural invariant of a run: both locks are free between calls, the
free list is `l`, its pages lie between the end of the kernel and `PHYSTOP`,
no page is both free and outstanding, no page is outstanding twice, and the
pages given to `freerange` are exactly the free and the outstanding ones. -/
structure Inv (L : Layout) (a b : Nat) (t : List Event) (s : KState) (l : List Nat) :
    Prop where
  kmem_free : s.kmem_lock = false
  ref_free : s.ref_lock = false
  free : FreeList s l
  bounds : ∀ p ∈ l, L.kend ≤ p ∧ p < L.PHYSTOP
  disjoint : ∀ p ∈ l, p ∉ outstanding t
  nodup : (outstanding t).Nodup
  cover : ∀ p, p ∈ rangePages a b ↔ (p ∈ l ∨ p ∈ outstanding t)

/-- The counter invariant of a run in which no counter wraps: free pages have
counter zero and outstanding pages have a counter of at least one. -/
def CInv (t : List Event) (s : KState) (l : List Nat) : Prop :=
  (∀ p ∈ l, s.reference_counter (p / PGSIZE) = 0) ∧
    ∀ p ∈ outstanding t, 1 ≤ s.reference_counter (p / PGSIZE)

/-! ## Concrete states and a concrete run -/

/-- A small machine: the kernel ends at 4096 and physical memory at 16384, so
the pages are 4096, 8192 and 12288. -/
def demoL : Layout := { kend := 4096, PHYSTOP := 16384 }

/-- A state of the small machine: the free list is 8192, 4096 (the link stored
at 8192 is 4096 = 16 * 256, the one at 4096 is null), and page 12288 is
allocated and shared by two owners. -/
def demoState : KState :=
  { mem := fun x => if x = 8193 then 16 else 0
    freelist := 8192
    reference_counter := fun f => if f = 3 then 2 else 0
    kmem_lock := false
    ref_lock := false
    lockLog := [] }

/-- As `demoState`, with page 12288 held by a single owner. -/
def demoSingle : KState :=
  { demoState with reference_counter := fun f => if f = 3 then 1 else 0 }

/-- As `demoState`, with an empty free list. -/
def demoEmpty : KState := { demoState with freelist := 0 }

/-- As `demoState`, with the counter of page 12288 at the largest `uint`. -/
def demoFull : KState :=
  { demoState with reference_counter := fun f => if f = 3 then 4294967295 else 0 }

/-- The boot state of the small machine, with zeroed memory. -/
def demoBoot : KState :=
  { mem := fun _ => 0
    freelist := 0
    reference_counter := fun _ => 0
    kmem_lock := false
    ref_lock := false
    lockLog := [] }

/-- The state a call left, for a call that returned. -/
def stateOf (r : Except Fault KState) : KState :=
  match r with
  | .ok s => s
  | .error _ => demoBoot

/-- The state a `kalloc` left, for a call that returned. -/
def allocStateOf (r : Except Fault (Nat × KState)) : KState :=
  match r with
  | .ok (_, s) => s
  | .error _ => demoBoot

/-- The small machine after `freerange(4096, 16384)`. -/
def demoInit : KState := stateOf (freerange demoL demoBoot 4096 16384)

/-- Then after one `kalloc`, which returns 12288. -/
def demoA1 : KState := allocStateOf (kalloc demoInit)

/-- Then after `ref_counter_incr(12288)`. -/
def demoA2 : KState := ref_counter_incr demoA1 12288

/-- Then after `kfree(12288)`. -/
def demoA3 : KState := stateOf (kfree demoL demoA2 12288)

/-- After `freerange`, `kalloc` and a `kfree(12288)` that reclaims the page. -/
def demoB2 : KState := stateOf (kfree demoL demoA1 12288)

/-- Then after a second `kalloc`, which returns 12288 again. -/
def demoB3 : KState := allocStateOf (kalloc demoB2)

/-- After the shared page was released once, the next `kalloc` returns 8192. -/
def demoA4 : KState := allocStateOf (kalloc demoA3)

/-! ## Vocabulary for sequences of calls, page contents and lock histories -/

/-- The outcome of `n` consecutive `kalloc()` calls: the pointers returned, in
the order of the calls, and the final state. -/
def kallocN : Nat → KState → Except Fault (List Nat × KState)
  | 0, s => .ok ([], s)
  | n + 1, s =>
    match kalloc s with
    | .error e => .error e
    | .ok (p, s1) =>
      match kallocN n s1 with
      | .error e => .error e
      | .ok (ps, s2) => .ok (p :: ps, s2)

/-- The owner of page `p` stores the 4096 bytes `c 0`, ..., `c 4095` into it. -/
def writePage (s : KState) (p : Nat) (c : Nat → Nat) : KState :=
  { s with mem := fun x => if p ≤ x ∧ x < p + PGSIZE then c (x - p) % 256 else s.mem x }

/-- The statements of the source's `kfree` before its address check
(`ref_acquire(); ref_counter_decr(pa); ref_release();`): the value
`ref_counter_decr` returned and the state in which the check is then made. -/
def kfreeUpToCheck (s : KState) (pa : Nat) : Except Fault (Int × KState) :=
  match ref_acquire s with
  | .error e => .error e
  | .ok s1 => .ok ((ref_counter_decr s1 pa).1, ref_release (ref_counter_decr s1 pa).2)

/-- The statements of the source's `kfree` from its address check on, run in the
state `s2` that `kfreeUpToCheck` left. -/
def kfreeFromCheck (L : Layout) (s2 : KState) (pa : Nat) : Except Fault KState :=
  if pa % PGSIZE ≠ 0 ∨ pa < L.kend ∨ pa ≥ L.PHYSTOP then
    .error .panic
  else
    let s3 := { s2 with mem := memset s2.mem pa 1 PGSIZE }
    match acquireKmem s3 with
    | .error e => .error e
    | .ok s4 =>
      let s5 := { s4 with mem := write64 s4.mem pa s4.freelist }
      let s6 := { s5 with freelist := pa }
      .ok (releaseKmem s6)

/-- Which locks are held (`kmem.lock`, `ref_count.lock`) after one more lock
operation. -/
def lockStep (st : Bool × Bool) : LockEvent → Bool × Bool
  | .acquireKmem => (true, st.2)
  | .releaseKmem => (false, st.2)
  | .acquireRef => (st.1, true)
  | .releaseRef => (st.1, false)

/-- The lock holdings after each operation of a history that starts with the
holdings `st`. -/
def lockStates (st : Bool × Bool) : List LockEvent → List (Bool × Bool)
  | [] => []
  | e :: es => lockStep st e :: lockStates (lockStep st e) es

/-- During a history of lock operations entered with neither lock held, the two
locks are never held at the same time. -/
def neverBoth (es : List LockEvent) : Prop :=
  ∀ st ∈ lockStates (false, false) es, ¬ (st.1 = true ∧ st.2 = true)

/-- Every acquire of a history is matched by a release of the same lock. -/
def balanced (es : List LockEvent) : Prop :=
  es.count .acquireKmem = es.count .releaseKmem ∧
    es.count .acquireRef = es.count .releaseRef

/-- As `demoState`, entered by a caller that holds `ref_count.lock`. -/
def demoHeld : KState := { demoState with ref_lock := true }

/-- A machine whose physical memory ends one page below the top of the 64-bit
address space: the kernel ends at 4096 and `PHYSTOP` is `2 ^ 64 - 4096`. -/
def demoTop : Layout := { kend := 4096, PHYSTOP := 18446744073709547520 }

/-! ## Memory lemmas -/

theorem read64_lt (m : Nat → Nat) (a : Nat) : read64 m a < 2 ^ 64 := by
  unfold read64
  norm_num
  omega

theorem read64_congr {m m1 : Nat → Nat} {a : Nat}
    (h : ∀ i, i < 8 → m1 (a + i) = m (a + i)) : read64 m1 a = read64 m a := by
  unfold read64
  have h0 := h 0 (by omega)
  simp only [Nat.add_zero] at h0
  rw [h0, h 1 (by omega), h 2 (by omega), h 3 (by omega), h 4 (by omega),
    h 5 (by omega), h 6 (by omega), h 7 (by omega)]

theorem read64_write64 (m : Nat → Nat) (a v : Nat) (hv : v < 2 ^ 64) :
    read64 (write64 m a v) a = v := by
  unfold read64 write64
  simp
  omega

theorem memset_outside {m : Nat → Nat} {dst c n x : Nat}
    (h : x < dst ∨ dst + n ≤ x) : memset m dst c n x = m x := by
  unfold memset
  rw [if_neg]
  omega

theorem memset_inside {m : Nat → Nat} {dst c n x : Nat}
    (h1 : dst ≤ x) (h2 : x < dst + n) : memset m dst c n x = c % 256 := by
  unfold memset
  rw [if_pos ⟨h1, h2⟩]

theorem write64_outside {m : Nat → Nat} {a v x : Nat}
    (h : x < a ∨ a + 8 ≤ x) : write64 m a v x = m x := by
  unfold write64
  rw [if_neg]
  omega

/-- Two distinct page-aligned addresses are at least a page apart. -/
theorem page_apart {p q : Nat} (hp : p % PGSIZE = 0) (hq : q % PGSIZE = 0)
    (hne : p ≠ q) : p + PGSIZE ≤ q ∨ q + PGSIZE ≤ p := by
  simp only [PGSIZE] at *
  omega

theorem frame_ne {p q : Nat} (hp : p % PGSIZE = 0) (hq : q % PGSIZE = 0)
    (hne : p ≠ q) : p / PGSIZE ≠ q / PGSIZE := by
  simp only [PGSIZE] at *
  omega

/-! ## The linked list in memory -/

theorem linked_congr {m m1 : Nat → Nat} :
    ∀ (l : List Nat) (h : Nat), linked m h l →
      (∀ p ∈ l, ∀ i, i < 8 → m1 (p + i) = m (p + i)) → linked m1 h l
  | [], _, hl, _ => hl
  | p :: l, h, hl, hm => by
    obtain ⟨h1, h2, h3⟩ := hl
    refine ⟨h1, h2, ?_⟩
    rw [read64_congr (hm p (List.mem_cons_self p l))]
    exact linked_congr l _ h3 (fun q hq => hm q (List.mem_cons_of_mem p hq))

theorem linked_unique {m : Nat → Nat} :
    ∀ (l1 l2 : List Nat) (h : Nat), linked m h l1 → linked m h l2 → l1 = l2
  | [], [], _, _, _ => rfl
  | [], q :: l2, h, h1, h2 => by
    obtain ⟨e, ne, _⟩ := h2
    exact absurd (e ▸ h1) ne
  | p :: l1, [], h, h1, h2 => by
    obtain ⟨e, ne, _⟩ := h1
    exact absurd (e ▸ h2) ne
  | p :: l1, q :: l2, h, h1, h2 => by
    obtain ⟨e1, _, t1⟩ := h1
    obtain ⟨e2, _, t2⟩ := h2
    have hpq : p = q := e1 ▸ e2
    subst hpq
    rw [linked_unique l1 l2 _ t1 t2]

theorem linked_of_mem {m : Nat → Nat} :
    ∀ (l : List Nat) (h q : Nat), linked m h l → q ∈ l →
      ∃ l1 l2, l = l1 ++ q :: l2 ∧ linked m q (q :: l2)
  | [], _, _, _, hq => absurd hq (List.not_mem_nil _)
  | p :: l, h, q, hl, hq => by
    by_cases hpq : q = p
    · subst hpq
      exact ⟨[], l, rfl, rfl, hl.2.1, hl.2.2⟩
    · have hq1 : q ∈ l := by
        rcases List.mem_cons.1 hq with h0 | h0
        · exact absurd h0 hpq
        · exact h0
      obtain ⟨l1, l2, e, h2⟩ := linked_of_mem l _ q hl.2.2 hq1
      exact ⟨p :: l1, l2, by rw [e]; rfl, h2⟩

/-- A list that ends in null visits no node twice. -/
theorem linked_nodup {m : Nat → Nat} :
    ∀ (l : List Nat) (h : Nat), linked m h l → l.Nodup
  | [], _, _ => List.nodup_nil
  | p :: l, h, hl => by
    refine List.nodup_cons.2 ⟨?_, linked_nodup l _ hl.2.2⟩
    intro hp
    obtain ⟨l1, l2, e, h2⟩ := linked_of_mem l _ p hl.2.2 hp
    have h3 : linked m p (p :: l) := ⟨rfl, hl.2.1, hl.2.2⟩
    have e2 := linked_unique _ _ _ h2 h3
    have e3 : l2 = l := by injection e2
    have e4 := congrArg List.length e
    rw [e3] at e4
    simp at e4
    omega

theorem linked_head_lt {m : Nat → Nat} {h : Nat} {l : List Nat} {B : Nat}
    (hl : linked m h l) (hB : ∀ p ∈ l, p < B) (h0 : 0 < B) : h < B := by
  cases l with
  | nil => rw [show h = 0 from hl]; exact h0
  | cons p l => rw [hl.1]; exact hB p (List.mem_cons_self p l)

/-! ## What one call does -/

theorem kalloc_none (s : KState) (hk : s.kmem_lock = false) (hf : s.freelist = 0) :
    ∃ s1, kalloc s = .ok (0, s1) ∧ s1.freelist = s.freelist ∧ s1.mem = s.mem ∧
      s1.reference_counter = s.reference_counter ∧ s1.kmem_lock = false ∧
      s1.ref_lock = s.ref_lock := by
  simp [kalloc, acquireKmem, releaseKmem, hk, hf]

theorem kalloc_some (s : KState) (hk : s.kmem_lock = false) (hf : s.freelist ≠ 0) :
    ∃ s1, kalloc s = .ok (s.freelist, s1) ∧ s1.freelist = read64 s.mem s.freelist ∧
      s1.mem = memset s.mem s.freelist 5 PGSIZE ∧
      s1.reference_counter = Function.update s.reference_counter (s.freelist / PGSIZE) 1 ∧
      s1.kmem_lock = false ∧ s1.ref_lock = s.ref_lock := by
  cases hr : s.ref_lock <;>
    simp [kalloc, acquireKmem, releaseKmem, holdingRef, ref_acquire, ref_release,
      ref_counter_set, hk, hf, hr]

theorem kfree_shared (L : Layout) (s : KState) (pa : Nat) (hr : s.ref_lock = false)
    (hc : 1 < s.reference_counter (pa / PGSIZE)) :
    ∃ s1, kfree L s pa = .ok s1 ∧ s1.freelist = s.freelist ∧ s1.mem = s.mem ∧
      s1.reference_counter = Function.update s.reference_counter (pa / PGSIZE)
        (s.reference_counter (pa / PGSIZE) - 1) ∧
      s1.kmem_lock = s.kmem_lock ∧ s1.ref_lock = false := by
  simp [kfree, ref_acquire, ref_release, ref_counter_decr, hr, hc]

theorem kfree_last (L : Layout) (s : KState) (pa : Nat) (hr : s.ref_lock = false)
    (hk : s.kmem_lock = false) (hc : s.reference_counter (pa / PGSIZE) ≤ 1)
    (ha : pa % PGSIZE = 0) (hlo : L.kend ≤ pa) (hhi : pa < L.PHYSTOP) :
    ∃ s1, kfree L s pa = .ok s1 ∧ s1.freelist = pa ∧
      s1.mem = write64 (memset s.mem pa 1 PGSIZE) pa s.freelist ∧
      s1.reference_counter = Function.update s.reference_counter (pa / PGSIZE) 0 ∧
      s1.kmem_lock = false ∧ s1.ref_lock = false := by
  have hc1 : ¬ 1 < s.reference_counter (pa / PGSIZE) := by omega
  have h1 : ¬ pa < L.kend := by omega
  have h2 : ¬ L.PHYSTOP ≤ pa := by omega
  simp [kfree, ref_acquire, ref_release, ref_counter_decr, acquireKmem, releaseKmem,
    hr, hk, hc1, ha, h1, h2]

theorem kfree_invalid (L : Layout) (s : KState) (pa : Nat) (hr : s.ref_lock = false)
    (hc : s.reference_counter (pa / PGSIZE) ≤ 1)
    (hbad : pa % PGSIZE ≠ 0 ∨ pa < L.kend ∨ L.PHYSTOP ≤ pa) :
    kfree L s pa = .error .panic := by
  have hc1 : ¬ 1 < s.reference_counter (pa / PGSIZE) := by omega
  rcases hbad with h | h | h <;>
    simp [kfree, ref_acquire, ref_release, ref_counter_decr, hr, hc1, h]

/-- Every successful `kfree` is one of the two successful paths. -/
theorem kfree_ok_cases {L : Layout} {s s1 : KState} {pa : Nat} (hr : s.ref_lock = false)
    (hk : s.kmem_lock = false) (h : kfree L s pa = .ok s1) :
    (1 < s.reference_counter (pa / PGSIZE) ∧ s1.freelist = s.freelist ∧ s1.mem = s.mem ∧
      s1.reference_counter = Function.update s.reference_counter (pa / PGSIZE)
        (s.reference_counter (pa / PGSIZE) - 1) ∧
      s1.kmem_lock = false ∧ s1.ref_lock = false) ∨
    (s.reference_counter (pa / PGSIZE) ≤ 1 ∧ pa % PGSIZE = 0 ∧ L.kend ≤ pa ∧
      pa < L.PHYSTOP ∧ s1.freelist = pa ∧
      s1.mem = write64 (memset s.mem pa 1 PGSIZE) pa s.freelist ∧
      s1.reference_counter = Function.update s.reference_counter (pa / PGSIZE) 0 ∧
      s1.kmem_lock = false ∧ s1.ref_lock = false) := by
  by_cases hc : 1 < s.reference_counter (pa / PGSIZE)
  · obtain ⟨s2, e, h1, h2, h3, h4, h5⟩ := kfree_shared L s pa hr hc
    rw [e] at h
    injection h with h
    subst h
    exact Or.inl ⟨hc, h1, h2, h3, by rw [h4, hk], h5⟩
  · have hc1 : s.reference_counter (pa / PGSIZE) ≤ 1 := by omega
    by_cases hbad : pa % PGSIZE ≠ 0 ∨ pa < L.kend ∨ L.PHYSTOP ≤ pa
    · rw [kfree_invalid L s pa hr hc1 hbad] at h
      cases h
    · have ha : pa % PGSIZE = 0 := by
        by_contra h0
        exact hbad (Or.inl h0)
      have hlo : L.kend ≤ pa := by
        by_contra h0
        exact hbad (Or.inr (Or.inl (by omega)))
      have hhi : pa < L.PHYSTOP := by
        by_contra h0
        exact hbad (Or.inr (Or.inr (by omega)))
      obtain ⟨s2, e, h1, h2, h3, h4, h5⟩ := kfree_last L s pa hr hk hc1 ha hlo hhi
      rw [e] at h
      injection h with h
      subst h
      exact Or.inr ⟨hc1, ha, hlo, hhi, h1, h2, h3, h4, h5⟩

/-! ## The free list across a call -/

theorem FreeList.pop {s s1 : KState} {p : Nat} {rest : List Nat}
    (hl : FreeList s (p :: rest)) (hf : s1.freelist = read64 s.mem p)
    (hm : s1.mem = memset s.mem p 5 PGSIZE) : FreeList s1 rest := by
  obtain ⟨hlk, hal⟩ := hl
  have hnd := List.nodup_cons.1 (linked_nodup _ _ hlk)
  refine ⟨?_, fun q hq => hal q (List.mem_cons_of_mem p hq)⟩
  rw [hf, hm]
  refine linked_congr rest _ hlk.2.2 ?_
  intro q hq i hi
  have hne : p ≠ q := fun e => hnd.1 (e ▸ hq)
  have hap := page_apart (hal p (List.mem_cons_self p rest)).1
    (hal q (List.mem_cons_of_mem p hq)).1 hne
  apply memset_outside
  simp only [PGSIZE] at hap ⊢
  omega

theorem FreeList.push {s s1 : KState} {pa : Nat} {l : List Nat}
    (hl : FreeList s l) (hnot : pa ∉ l) (ha : pa % PGSIZE = 0) (h0 : pa ≠ 0)
    (h64 : pa < 2 ^ 64) (hf : s1.freelist = pa)
    (hm : s1.mem = write64 (memset s.mem pa 1 PGSIZE) pa s.freelist) :
    FreeList s1 (pa :: l) := by
  obtain ⟨hlk, hal⟩ := hl
  have hhead : s.freelist < 2 ^ 64 :=
    linked_head_lt hlk (fun p hp => (hal p hp).2) (by norm_num)
  refine ⟨⟨hf, h0, ?_⟩, ?_⟩
  · rw [hm, read64_write64 _ _ _ hhead]
    refine linked_congr l _ hlk ?_
    intro q hq i hi
    have hne : pa ≠ q := fun e => hnot (e ▸ hq)
    have hap := page_apart ha (hal q hq).1 hne
    rw [write64_outside, memset_outside]
    · simp only [PGSIZE] at hap ⊢
      omega
    · simp only [PGSIZE] at hap ⊢
      omega
  · intro q hq
    rcases List.mem_cons.1 hq with e | hq1
    · rw [e]
      exact ⟨ha, h64⟩
    · exact hal q hq1

theorem FreeList.same {s s1 : KState} {l : List Nat} (hl : FreeList s l)
    (hf : s1.freelist = s.freelist) (hm : s1.mem = s.mem) : FreeList s1 l := by
  unfold FreeList
  rw [hf, hm]
  exact hl

theorem FreeList.unique {s : KState} {l1 l2 : List Nat} (h1 : FreeList s l1)
    (h2 : FreeList s l2) : l1 = l2 :=
  linked_unique _ _ _ h1.1 h2.1

/-! ## `freerange` -/

theorem pagesUp_succ (p n : Nat) :
    pagesUp p (n + 1) = p :: pagesUp (p + PGSIZE) n := by
  unfold pagesUp
  rw [List.range_succ_eq_map, List.map_cons, List.map_map]
  simp only [Nat.zero_mul, Nat.add_zero, List.cons.injEq, true_and]
  apply List.map_congr_left
  intro k _
  simp only [Function.comp, Nat.succ_eq_add_one]
  ring

theorem mem_pagesUp {p n q : Nat} :
    q ∈ pagesUp p n ↔ ∃ k, k < n ∧ q = p + k * PGSIZE := by
  unfold pagesUp
  simp only [List.mem_map, List.mem_range]
  constructor
  · rintro ⟨k, hk, e⟩
    exact ⟨k, hk, e.symm⟩
  · rintro ⟨k, hk, e⟩
    exact ⟨k, hk, e.symm⟩

theorem rangePages_eq {a b : Nat} (h : PGROUNDUP a + PGSIZE < 2 ^ 64) :
    rangePages a b = pagesUp (PGROUNDUP a) ((b - PGROUNDUP a) / PGSIZE) := by
  unfold rangePages pagesUp
  rw [if_pos h]

theorem rangePages_top {a b : Nat} (h : ¬ PGROUNDUP a + PGSIZE < 2 ^ 64) :
    rangePages a b = [PGROUNDUP a] := by
  unfold rangePages
  rw [if_neg h]

theorem PGROUNDUP_aligned (a : Nat) : PGROUNDUP a % PGSIZE = 0 := by
  unfold PGROUNDUP
  exact Nat.mul_mod_left _ _

theorem PGROUNDUP_lt (a : Nat) : PGROUNDUP a < 2 ^ 64 := by
  unfold PGROUNDUP
  have h : (a + PGSIZE - 1) % 2 ^ 64 < 2 ^ 64 := Nat.mod_lt _ (by norm_num)
  simp only [PGSIZE] at h ⊢
  omega

theorem rangePages_aligned {a b q : Nat} (h : q ∈ rangePages a b) : q % PGSIZE = 0 := by
  have hR := PGROUNDUP_aligned a
  by_cases hw : PGROUNDUP a + PGSIZE < 2 ^ 64
  · rw [rangePages_eq hw] at h
    obtain ⟨k, _, e⟩ := mem_pagesUp.1 h
    rw [e]
    simp only [PGSIZE] at *
    omega
  · rw [rangePages_top hw] at h
    rw [List.mem_singleton.1 h]
    exact hR

theorem pagesUp_nodup (p n : Nat) : (pagesUp p n).Nodup := by
  unfold pagesUp
  refine List.Nodup.map ?_ (List.nodup_range n)
  intro i j h
  simp only [PGSIZE] at h
  omega

theorem rangePages_nodup (a b : Nat) : (rangePages a b).Nodup := by
  by_cases hw : PGROUNDUP a + PGSIZE < 2 ^ 64
  · rw [rangePages_eq hw]
    exact pagesUp_nodup _ _
  · rw [rangePages_top hw]
    exact List.nodup_singleton _

/-- A result of the loop of `freerange` other than `Fault.diverge` does not
depend on the number of rounds it was given: more rounds give the same. -/
theorem freerangeLoop_more_rounds {L : Layout} {b : Nat} (n : Nat) :
    ∀ (m p : Nat) (s : KState), n ≤ m →
      freerangeLoop L b n p s ≠ .error .diverge →
      freerangeLoop L b m p s = freerangeLoop L b n p s := by
  induction n with
  | zero =>
    intro m p s _ h
    rw [freerangeLoop] at h
    exact absurd rfl h
  | succ n ih =>
    intro m p s hle h
    obtain ⟨r, rfl⟩ : ∃ r, m = r + 1 := ⟨m - 1, by omega⟩
    by_cases ht : (p + PGSIZE) % 2 ^ 64 ≤ b
    · simp only [freerangeLoop, if_pos ht] at h ⊢
      cases hk : kfree L s p with
      | error e => rfl
      | ok s1 =>
        simp only [hk] at h ⊢
        exact ih r _ s1 (by omega) h
    · simp only [freerangeLoop, if_neg ht]

theorem kfree_ne_diverge (L : Layout) (s : KState) (pa : Nat) :
    kfree L s pa ≠ .error .diverge := by
  intro h
  cases hr : s.ref_lock with
  | true => simp [kfree, ref_acquire, hr] at h
  | false =>
    by_cases hc : 1 < s.reference_counter (pa / PGSIZE)
    · obtain ⟨s1, e, _⟩ := kfree_shared L s pa hr hc
      rw [e] at h
      cases h
    · by_cases hbad : pa % PGSIZE ≠ 0 ∨ pa < L.kend ∨ L.PHYSTOP ≤ pa
      · rw [kfree_invalid L s pa hr (by omega) hbad] at h
        cases h
      · have h1 : pa % PGSIZE = 0 := by
          by_contra h0
          exact hbad (Or.inl h0)
        have h2 : ¬ pa < L.kend := fun h0 => hbad (Or.inr (Or.inl h0))
        have h3 : ¬ L.PHYSTOP ≤ pa := fun h0 => hbad (Or.inr (Or.inr h0))
        cases hk : s.kmem_lock <;>
          simp [kfree, ref_acquire, ref_release, ref_counter_decr, acquireKmem,
            releaseKmem, hr, hk, hc, h1, h2, h3] at h

/-- When the loop of `freerange` uses up its rounds, its test passed in every one
of them: with one round for each page-aligned 64-bit address, the test passes at
every address `p` runs through, and the loop never leaves through it. -/
theorem freerangeLoop_diverge {L : Layout} {b : Nat} (n : Nat) :
    ∀ (p : Nat) (s : KState), freerangeLoop L b n p s = .error .diverge →
      ∀ k, k < n → (p + (k + 1) * PGSIZE) % 2 ^ 64 ≤ b := by
  induction n with
  | zero =>
    intro p s _ k hk
    omega
  | succ n ih =>
    intro p s h k hk
    by_cases ht : (p + PGSIZE) % 2 ^ 64 ≤ b
    · simp only [freerangeLoop, if_pos ht] at h
      cases hkf : kfree L s p with
      | error e =>
        rw [hkf] at h
        have he : e = Fault.diverge := Except.error.inj h
        rw [he] at hkf
        exact absurd hkf (kfree_ne_diverge L s p)
      | ok s1 =>
        simp only [hkf] at h
        cases k with
        | zero => simpa using ht
        | succ k =>
          have := ih _ s1 h k (by omega)
          rw [Nat.mod_add_mod] at this
          have e : p + PGSIZE + (k + 1) * PGSIZE = p + (k + 1 + 1) * PGSIZE := by ring
          rw [e] at this
          exact this
    · simp only [freerangeLoop, if_neg ht] at h
      cases h

/-- From the last page of the address space the loop of `freerange` does not
return on a boot state: the end of the page wraps to 0, the page is handed to
`kfree`, and the loop goes on at address 0, which `kfree` refuses. -/
theorem freerangeLoop_top {L : Layout} (h0 : 0 < L.kend) {b p : Nat}
    (hp : p + PGSIZE = 2 ^ 64) (hb : PGSIZE ≤ b) (n : Nat) (s s1 : KState)
    (hk : s.kmem_lock = false) (hr : s.ref_lock = false)
    (hc : ∀ f, s.reference_counter f = 0) :
    freerangeLoop L b n p s ≠ .ok s1 := by
  cases n with
  | zero =>
    intro h
    rw [freerangeLoop] at h
    cases h
  | succ n =>
    intro h
    rw [freerangeLoop, hp, Nat.mod_self, if_pos (Nat.zero_le _)] at h
    cases hkf : kfree L s p with
    | error e =>
      rw [hkf] at h
      cases h
    | ok s2 =>
      rw [hkf] at h
      simp only at h
      rcases kfree_ok_cases hr hk hkf with ⟨hgt, _⟩ | ⟨_, _, _, _, _, _, hc2, _, hr2⟩
      · rw [hc] at hgt
        omega
      · cases n with
        | zero =>
          rw [freerangeLoop] at h
          cases h
        | succ n =>
          have htest : (0 + PGSIZE) % 2 ^ 64 ≤ b := by
            simp only [PGSIZE] at hb ⊢
            omega
          have hz : s2.reference_counter (0 / PGSIZE) ≤ 1 := by
            rw [hc2]
            by_cases hf : 0 / PGSIZE = p / PGSIZE
            · rw [hf, Function.update_same]
              omega
            · rw [Function.update_noteq hf, hc]
              omega
          rw [freerangeLoop, if_pos htest,
            kfree_invalid L s2 0 hr2 hz (Or.inr (Or.inl h0))] at h
          cases h

/-- What the loop of `freerange` leaves when it returns: the pages it walked
over are pushed, lowest first, on top of the free list it started from, each of
them passed the checks of `kfree`, and counters and locks are as before. -/
theorem freerangeLoop_ok {L : Layout} (h0 : 0 < L.kend) (b : Nat) :
    ∀ (n rounds p : Nat) (s s1 : KState) (l : List Nat), (b - p) / PGSIZE = n →
      p % PGSIZE = 0 → p + PGSIZE < 2 ^ 64 → s.kmem_lock = false → s.ref_lock = false →
      (∀ f, s.reference_counter f = 0) → FreeList s l → (∀ q ∈ l, q < p) →
      freerangeLoop L b rounds p s = .ok s1 →
      FreeList s1 ((pagesUp p n).reverse ++ l) ∧ (∀ f, s1.reference_counter f = 0) ∧
        s1.kmem_lock = false ∧ s1.ref_lock = false ∧
        ∀ q ∈ pagesUp p n, L.kend ≤ q ∧ q < L.PHYSTOP := by
  intro n
  induction n with
  | zero =>
    intro rounds p s s1 l hn hp hw hk hr hc hl hlt hrun
    cases rounds with
    | zero =>
      rw [freerangeLoop] at hrun
      cases hrun
    | succ rounds =>
      rw [freerangeLoop, Nat.mod_eq_of_lt hw] at hrun
      have hno : ¬ p + PGSIZE ≤ b := by
        simp only [PGSIZE] at hn ⊢
        omega
      rw [if_neg hno] at hrun
      injection hrun with hrun
      subst hrun
      refine ⟨by simpa [pagesUp] using hl, hc, hk, hr, ?_⟩
      intro q hq
      simp [pagesUp] at hq
  | succ n ih =>
    intro rounds p s s1 l hn hp hw hk hr hc hl hlt hrun
    cases rounds with
    | zero =>
      rw [freerangeLoop] at hrun
      cases hrun
    | succ rounds =>
      rw [freerangeLoop, Nat.mod_eq_of_lt hw] at hrun
      have hyes : p + PGSIZE ≤ b := by
        simp only [PGSIZE] at hn ⊢
        omega
      rw [if_pos hyes] at hrun
      cases hkf : kfree L s p with
      | error e =>
        rw [hkf] at hrun
        cases hrun
      | ok s2 =>
        rw [hkf] at hrun
        simp only at hrun
        rcases kfree_ok_cases hr hk hkf with
          ⟨hgt, _⟩ | ⟨_, _, hlo, hhi, hf2, hm2, hc2, hk2, hr2⟩
        · rw [hc] at hgt
          omega
        · have hpl : p ∉ l := fun hin => Nat.lt_irrefl p (hlt p hin)
          have hl2 : FreeList s2 (p :: l) :=
            FreeList.push hl hpl hp (by omega) (by omega) hf2 hm2
          have hc2z : ∀ f, s2.reference_counter f = 0 := by
            intro f
            rw [hc2]
            by_cases hf : f = p / PGSIZE
            · rw [hf, Function.update_same]
            · rw [Function.update_noteq hf, hc]
          have hp2 : (p + PGSIZE) % PGSIZE = 0 := by
            simp only [PGSIZE] at hp ⊢
            omega
          by_cases hw2 : p + PGSIZE + PGSIZE < 2 ^ 64
          · have hn2 : (b - (p + PGSIZE)) / PGSIZE = n := by
              simp only [PGSIZE] at hn hyes ⊢
              omega
            have hlt2 : ∀ q ∈ p :: l, q < p + PGSIZE := by
              intro q hq
              rcases List.mem_cons.1 hq with e | hq1
              · rw [e]
                simp [PGSIZE]
              · exact Nat.lt_of_lt_of_le (hlt q hq1) (Nat.le_add_right _ _)
            obtain ⟨r1, r2, r3, r4, r5⟩ :=
              ih rounds (p + PGSIZE) s2 s1 (p :: l) hn2 hp2 hw2 hk2 hr2 hc2z hl2 hlt2 hrun
            refine ⟨?_, r2, r3, r4, ?_⟩
            · rw [pagesUp_succ, List.reverse_cons, List.append_assoc]
              exact r1
            · intro q hq
              rw [pagesUp_succ] at hq
              rcases List.mem_cons.1 hq with e | hq1
              · rw [e]
                exact ⟨hlo, hhi⟩
              · exact r5 q hq1
          · have htop : p + PGSIZE + PGSIZE = 2 ^ 64 := by
              simp only [PGSIZE] at hw hw2 hp ⊢
              omega
            have hb : PGSIZE ≤ b := by
              simp only [PGSIZE] at hyes ⊢
              omega
            exact absurd hrun (freerangeLoop_top h0 htop hb rounds s2 s1 hk2 hr2 hc2z)

/-- The loop of `freerange` returns when it is run on pages between the end of
the kernel and `PHYSTOP` and no page end wraps around `2 ^ 64`. -/
theorem freerangeLoop_total {L : Layout} (b : Nat) (hb : b ≤ L.PHYSTOP)
    (hbw : b + PGSIZE < 2 ^ 64) :
    ∀ (n rounds p : Nat) (s : KState), (b - p) / PGSIZE = n → n < rounds →
      p % PGSIZE = 0 → L.kend ≤ p → p + PGSIZE < 2 ^ 64 →
      s.kmem_lock = false → s.ref_lock = false → (∀ f, s.reference_counter f = 0) →
      ∃ s1, freerangeLoop L b rounds p s = .ok s1 := by
  intro n
  induction n with
  | zero =>
    intro rounds p s hn hlt hp hlo hw hk hr hc
    obtain ⟨r, rfl⟩ : ∃ r, rounds = r + 1 := ⟨rounds - 1, by omega⟩
    rw [freerangeLoop, Nat.mod_eq_of_lt hw]
    have hno : ¬ p + PGSIZE ≤ b := by
      simp only [PGSIZE] at hn ⊢
      omega
    rw [if_neg hno]
    exact ⟨s, rfl⟩
  | succ n ih =>
    intro rounds p s hn hlt hp hlo hw hk hr hc
    obtain ⟨r, rfl⟩ : ∃ r, rounds = r + 1 := ⟨rounds - 1, by omega⟩
    rw [freerangeLoop, Nat.mod_eq_of_lt hw]
    have hyes : p + PGSIZE ≤ b := by
      simp only [PGSIZE] at hn ⊢
      omega
    rw [if_pos hyes]
    have hhi : p < L.PHYSTOP := by
      simp only [PGSIZE] at hyes
      omega
    obtain ⟨s2, e, _, _, hc2, hk2, hr2⟩ :=
      kfree_last L s p hr hk (by rw [hc]; omega) hp hlo hhi
    rw [e]
    simp only
    refine ih r (p + PGSIZE) s2 ?_ (by omega) ?_ (by omega) (by omega) hk2 hr2 ?_
    · simp only [PGSIZE] at hn hyes ⊢
      omega
    · simp only [PGSIZE] at hp ⊢
      omega
    · intro f
      rw [hc2]
      by_cases hf : f = p / PGSIZE
      · rw [hf, Function.update_same]
      · rw [Function.update_noteq hf, hc]

theorem rounds_eq : 2 ^ 64 / PGSIZE = 4503599627370494 + 1 + 1 := by
  decide

theorem freerange_boot {L : Layout} (h0 : 0 < L.kend) (_h64 : L.PHYSTOP ≤ 2 ^ 64)
    {a b : Nat} {s0 s : KState} (hb : Boot s0) (h : freerange L s0 a b = .ok s) :
    FreeList s (rangePages a b).reverse ∧ (∀ f, s.reference_counter f = 0) ∧
      s.kmem_lock = false ∧ s.ref_lock = false ∧
      ∀ q ∈ rangePages a b, L.kend ≤ q ∧ q < L.PHYSTOP := by
  obtain ⟨hf, hc, hk, hr⟩ := hb
  have hl : FreeList s0 [] := ⟨hf, fun p hp => absurd hp (List.not_mem_nil p)⟩
  have hR := PGROUNDUP_aligned a
  have hRlt := PGROUNDUP_lt a
  unfold freerange at h
  by_cases hw : PGROUNDUP a + PGSIZE < 2 ^ 64
  · have := freerangeLoop_ok h0 b _ _ (PGROUNDUP a) s0 s [] rfl hR hw
      hk hr hc hl (fun q hq => absurd hq (List.not_mem_nil q)) h
    rw [List.append_nil, ← rangePages_eq hw] at this
    exact this
  · have htop : PGROUNDUP a + PGSIZE = 2 ^ 64 := by
      simp only [PGSIZE] at hw hR hRlt ⊢
      omega
    rw [rangePages_top hw]
    rw [rounds_eq, freerangeLoop, htop, Nat.mod_self, if_pos (Nat.zero_le _)] at h
    cases hkf : kfree L s0 (PGROUNDUP a) with
    | error e =>
      rw [hkf] at h
      cases h
    | ok s2 =>
      rw [hkf] at h
      simp only at h
      rcases kfree_ok_cases hr hk hkf with
        ⟨hgt, _⟩ | ⟨_, _, hlo, hhi, hf2, hm2, hc2, hk2, hr2⟩
      · rw [hc] at hgt
        omega
      · have hl2 : FreeList s2 [PGROUNDUP a] :=
          FreeList.push hl (List.not_mem_nil _) hR (by omega) hRlt hf2 hm2
        have hc2z : ∀ f, s2.reference_counter f = 0 := by
          intro f
          rw [hc2]
          by_cases hf : f = PGROUNDUP a / PGSIZE
          · rw [hf, Function.update_same]
          · rw [Function.update_noteq hf, hc]
        rw [freerangeLoop] at h
        by_cases htest : (0 + PGSIZE) % 2 ^ 64 ≤ b
        · rw [if_pos htest, kfree_invalid L s2 0 hr2 (by rw [hc2z]; omega)
            (Or.inr (Or.inl h0))] at h
          cases h
        · rw [if_neg htest] at h
          injection h with h
          subst h
          refine ⟨hl2, hc2z, hk2, hr2, ?_⟩
          intro q hq
          rw [List.mem_singleton.1 hq]
          exact ⟨hlo, hhi⟩

theorem freerange_total {L : Layout} {a b : Nat} {s0 : KState} (hb : Boot s0)
    (hlo : L.kend ≤ PGROUNDUP a) (hhi : b ≤ L.PHYSTOP)
    (hw : PGROUNDUP a + PGSIZE < 2 ^ 64) (hbw : b + PGSIZE < 2 ^ 64) :
    ∃ s, freerange L s0 a b = .ok s := by
  unfold freerange
  refine freerangeLoop_total b hhi hbw _ _ (PGROUNDUP a) s0 rfl ?_
    (PGROUNDUP_aligned a) hlo hw hb.2.2.1 hb.2.2.2 hb.2.1
  rw [rounds_eq]
  simp only [PGSIZE] at hbw ⊢
  omega

/-- On a boot state `kinit` is `freerange(end, PHYSTOP)`: the two `initlock`
calls find the locks free and leave them so. -/
theorem kinit_eq_freerange {L : Layout} (h0 : 0 < L.kend) (h64 : L.PHYSTOP ≤ 2 ^ 64)
    {s0 : KState} (hb : Boot s0) :
    kinit L s0 = freerange L s0 L.kend L.PHYSTOP := by
  have e0 : initlockKmem s0 = s0 := by
    cases s0 with
    | mk m f rc kl rl log =>
      have hk : kl = false := hb.2.2.1
      subst hk
      rfl
  unfold kinit
  rw [e0]
  cases h : freerange L s0 L.kend L.PHYSTOP with
  | error e => rfl
  | ok s1 =>
    have hr := (freerange_boot h0 h64 hb h).2.2.2.1
    cases s1 with
    | mk m f rc kl rl log =>
      have hr1 : rl = false := hr
      subst hr1
      rfl

/-! ## Invariants of runs -/

theorem Inv.aligned_out {L : Layout} {a b : Nat} {t : List Event} {s : KState}
    {l : List Nat} (h : Inv L a b t s l) {p : Nat} (hp : p ∈ outstanding t) :
    p % PGSIZE = 0 :=
  rangePages_aligned ((h.cover p).2 (Or.inr hp))

theorem Inv.aligned_free {L : Layout} {a b : Nat} {t : List Event} {s : KState}
    {l : List Nat} (h : Inv L a b t s l) {p : Nat} (hp : p ∈ l) :
    p % PGSIZE = 0 :=
  (h.free.2 p hp).1

theorem inv_init {L : Layout} (h0 : 0 < L.kend) (h64 : L.PHYSTOP ≤ 2 ^ 64)
    {a b : Nat} {s0 s : KState} (hb : Boot s0) (h : freerange L s0 a b = .ok s) :
    Inv L a b [] s (rangePages a b).reverse ∧ CInv [] s (rangePages a b).reverse := by
  obtain ⟨h1, h2, h3, h4, h5⟩ := freerange_boot h0 h64 hb h
  refine ⟨⟨h3, h4, h1, ?_, ?_, List.nodup_nil, ?_⟩, ?_, ?_⟩
  · intro p hp
    exact h5 p (List.mem_reverse.1 hp)
  · intro p _
    simp [outstanding]
  · intro p
    simp [outstanding]
  · intro p _
    exact h2 _
  · intro p hp
    simp [outstanding] at hp

theorem inv_kalloc {L : Layout} {a b : Nat} {t : List Event} {s s1 : KState}
    {l : List Nat} {p : Nat} (hi : Inv L a b t s l) (h : kalloc s = .ok (p, s1)) :
    (p = 0 ∧ l = [] ∧ Inv L a b (.alloc p :: t) s1 l ∧
      s1.reference_counter = s.reference_counter) ∨
    (p ≠ 0 ∧ ∃ rest, l = p :: rest ∧ Inv L a b (.alloc p :: t) s1 rest ∧
      s1.reference_counter = Function.update s.reference_counter (p / PGSIZE) 1) := by
  cases l with
  | nil =>
    have hf : s.freelist = 0 := hi.free.1
    obtain ⟨s2, e, h1, h2, h3, h4, h5⟩ := kalloc_none s hi.kmem_free hf
    rw [e] at h
    injection h with h
    injection h with hp hs
    subst hp hs
    refine Or.inl ⟨rfl, rfl, ⟨h4, by rw [h5, hi.ref_free], FreeList.same hi.free h1 h2,
      hi.bounds, ?_, ?_, ?_⟩, h3⟩
    · simp
    · simpa [outstanding] using hi.nodup
    · simpa [outstanding] using hi.cover
  | cons q rest =>
    have hq : s.freelist = q := hi.free.1.1
    have hq0 : q ≠ 0 := hi.free.1.2.1
    obtain ⟨s2, e, h1, h2, h3, h4, h5⟩ := kalloc_some s hi.kmem_free (by rw [hq]; exact hq0)
    rw [e] at h
    injection h with h
    injection h with hp hs
    subst hs
    rw [hq] at hp h1 h2 h3
    subst hp
    have hnd := List.nodup_cons.1 (linked_nodup _ _ hi.free.1)
    have hqout : q ∉ outstanding t := hi.disjoint _ (List.mem_cons_self _ _)
    refine Or.inr ⟨hq0, rest, rfl, ⟨h4, by rw [h5, hi.ref_free], FreeList.pop hi.free h1 h2,
      fun p hp => hi.bounds p (List.mem_cons_of_mem _ hp), ?_, ?_, ?_⟩, h3⟩
    · intro p hp
      simp only [outstanding, if_neg hq0, List.mem_cons, not_or]
      exact ⟨fun e => hnd.1 (e ▸ hp), hi.disjoint p (List.mem_cons_of_mem _ hp)⟩
    · simp only [outstanding, if_neg hq0]
      exact List.nodup_cons.2 ⟨hqout, hi.nodup⟩
    · intro p
      rw [hi.cover p]
      simp only [outstanding, if_neg hq0, List.mem_cons]
      tauto

theorem inv_incr {L : Layout} {a b : Nat} {t : List Event} {s : KState}
    {l : List Nat} (pa : Nat) (hi : Inv L a b t s l) :
    Inv L a b (.incr pa :: t) (ref_counter_incr s pa) l :=
  ⟨hi.kmem_free, hi.ref_free, hi.free, hi.bounds, hi.disjoint, hi.nodup, hi.cover⟩

theorem inv_kfree {L : Layout} (h0 : 0 < L.kend) (h64 : L.PHYSTOP ≤ 2 ^ 64)
    {a b : Nat} {t : List Event} {s s1 : KState}
    {l : List Nat} {pa : Nat} (hi : Inv L a b t s l) (hpa : pa ∈ outstanding t)
    (h : kfree L s pa = .ok s1) :
    (1 < s.reference_counter (pa / PGSIZE) ∧
      Inv L a b (.release pa (decide (s.reference_counter (pa / PGSIZE) ≤ 1)) :: t) s1 l ∧
      s1.reference_counter = Function.update s.reference_counter (pa / PGSIZE)
        (s.reference_counter (pa / PGSIZE) - 1)) ∨
    (s.reference_counter (pa / PGSIZE) ≤ 1 ∧
      Inv L a b (.release pa (decide (s.reference_counter (pa / PGSIZE) ≤ 1)) :: t) s1
        (pa :: l) ∧
      s1.reference_counter = Function.update s.reference_counter (pa / PGSIZE) 0) := by
  rcases kfree_ok_cases hi.ref_free hi.kmem_free h with
    ⟨hc, h1, h2, h3, h4, h5⟩ | ⟨hc, ha, hlo, hhi, h1, h2, h3, h4, h5⟩
  · have hd : decide (s.reference_counter (pa / PGSIZE) ≤ 1) = false := by
      simp only [decide_eq_false_iff_not]
      omega
    rw [hd]
    exact Or.inl ⟨hc, ⟨h4, h5, FreeList.same hi.free h1 h2, hi.bounds, hi.disjoint,
      hi.nodup, hi.cover⟩, h3⟩
  · have hd : decide (s.reference_counter (pa / PGSIZE) ≤ 1) = true := by
      simp only [decide_eq_true_eq]
      exact hc
    rw [hd]
    have hnot : pa ∉ l := fun hin => hi.disjoint pa hin hpa
    refine Or.inr ⟨hc, ⟨h4, h5, FreeList.push hi.free hnot ha (by omega) (by omega) h1 h2,
      ?_, ?_, ?_, ?_⟩, h3⟩
    · intro p hp
      rcases List.mem_cons.1 hp with e | hp1
      · rw [e]
        exact ⟨hlo, hhi⟩
      · exact hi.bounds p hp1
    · intro p hp
      simp only [outstanding, if_true, List.mem_filter, decide_eq_true_eq, not_and, not_not]
      rcases List.mem_cons.1 hp with e | hp1
      · intro _
        exact e
      · intro hout
        exact absurd hout (hi.disjoint p hp1)
    · simp only [outstanding, if_true]
      exact hi.nodup.filter _
    · intro p
      rw [hi.cover p]
      simp only [outstanding, if_true, List.mem_filter, decide_eq_true_eq, List.mem_cons]
      by_cases e : p = pa
      · subst e
        tauto
      · tauto

theorem update_other {rc : Nat → Nat} {p q v : Nat} (hp : p % PGSIZE = 0)
    (hq : q % PGSIZE = 0) (hne : q ≠ p) :
    Function.update rc (p / PGSIZE) v (q / PGSIZE) = rc (q / PGSIZE) :=
  Function.update_noteq (frame_ne hq hp hne) _ _

/-- Every run keeps the structural invariant, and a run whose increments never
wrap a counter also keeps the counter invariant. -/
theorem run_inv {L : Layout} (h0 : 0 < L.kend) (h64 : L.PHYSTOP ≤ 2 ^ 64)
    {ok : Nat → Prop} {a b : Nat} {t : List Event} {s : KState}
    (hrun : Run L ok a b t s) :
    ∃ l, Inv L a b t s l ∧ ((∀ c, ok c → ownedNoWrap c) → CInv t s l) := by
  induction hrun with
  | init hb h =>
    exact ⟨_, (inv_init h0 h64 hb h).1, fun _ => (inv_init h0 h64 hb h).2⟩
  | @kalloc t s s1 p _ h ih =>
    obtain ⟨l, hi, hc⟩ := ih
    rcases inv_kalloc hi h with ⟨hp, _, hi1, hrc⟩ | ⟨hp, rest, hl, hi1, hrc⟩
    · refine ⟨l, hi1, fun hok => ?_⟩
      obtain ⟨c1, c2⟩ := hc hok
      refine ⟨fun q hq => by rw [hrc]; exact c1 q hq, fun q hq => ?_⟩
      rw [hrc]
      simp only [outstanding, if_pos hp] at hq
      exact c2 q hq
    · refine ⟨rest, hi1, fun hok => ?_⟩
      obtain ⟨c1, c2⟩ := hc hok
      subst hl
      have hpa : p % PGSIZE = 0 := hi.aligned_free (List.mem_cons_self _ _)
      have hnd := List.nodup_cons.1 (linked_nodup _ _ hi.free.1)
      refine ⟨fun q hq => ?_, fun q hq => ?_⟩
      · have hne : q ≠ p := fun e => hnd.1 (e ▸ hq)
        rw [hrc, update_other hpa (hi.aligned_free (List.mem_cons_of_mem _ hq)) hne]
        exact c1 q (List.mem_cons_of_mem _ hq)
      · simp only [outstanding, if_neg hp, List.mem_cons] at hq
        rcases hq with e | hq1
        · rw [e, hrc, Function.update_same]
        · have hne : q ≠ p := fun e => hi.disjoint p (List.mem_cons_self _ _) (e ▸ hq1)
          rw [hrc, update_other hpa (hi.aligned_out hq1) hne]
          exact c2 q hq1
  | @incr t s pa _ hg ih =>
    obtain ⟨l, hi, hc⟩ := ih
    refine ⟨l, inv_incr pa hi, fun hok => ?_⟩
    obtain ⟨c1, c2⟩ := hc hok
    obtain ⟨g1, g2⟩ := hok _ hg
    refine ⟨fun q hq => ?_, fun q hq => ?_⟩
    · show Function.update s.reference_counter (pa / PGSIZE) _ (q / PGSIZE) = 0
      by_cases hf : q / PGSIZE = pa / PGSIZE
      · have := c1 q hq
        rw [hf] at this
        omega
      · rw [Function.update_noteq hf]
        exact c1 q hq
    · show 1 ≤ Function.update s.reference_counter (pa / PGSIZE) _ (q / PGSIZE)
      by_cases hf : q / PGSIZE = pa / PGSIZE
      · rw [hf, Function.update_same, Nat.mod_eq_of_lt g2]
        omega
      · rw [Function.update_noteq hf]
        exact c2 q hq
  | @kfree t s s1 pa _ hpa h ih =>
    obtain ⟨l, hi, hc⟩ := ih
    have hal : pa % PGSIZE = 0 := hi.aligned_out hpa
    rcases inv_kfree h0 h64 hi hpa h with ⟨hgt, hi1, hrc⟩ | ⟨hle, hi1, hrc⟩
    · refine ⟨l, hi1, fun hok => ?_⟩
      obtain ⟨c1, c2⟩ := hc hok
      have hd : decide (s.reference_counter (pa / PGSIZE) ≤ 1) = false := by
        simp only [decide_eq_false_iff_not]
        omega
      refine ⟨fun q hq => ?_, fun q hq => ?_⟩
      · have hne : q ≠ pa := fun e => hi.disjoint q hq (e ▸ hpa)
        rw [hrc, update_other hal (hi.aligned_free hq) hne]
        exact c1 q hq
      · rw [hd] at hq
        simp only [outstanding] at hq
        by_cases hne : q = pa
        · rw [hne, hrc, Function.update_same]
          omega
        · rw [hrc, update_other hal (hi.aligned_out hq) hne]
          exact c2 q hq
    · refine ⟨pa :: l, hi1, fun hok => ?_⟩
      obtain ⟨c1, c2⟩ := hc hok
      have hd : decide (s.reference_counter (pa / PGSIZE) ≤ 1) = true := by
        simp only [decide_eq_true_eq]
        exact hle
      refine ⟨fun q hq => ?_, fun q hq => ?_⟩
      · rcases List.mem_cons.1 hq with e | hq1
        · rw [e, hrc, Function.update_same]
        · have hne : q ≠ pa := fun e => hi.disjoint q hq1 (e ▸ hpa)
          rw [hrc, update_other hal (hi.aligned_free hq1) hne]
          exact c1 q hq1
      · rw [hd] at hq
        simp only [outstanding, if_true, List.mem_filter, decide_eq_true_eq] at hq
        rw [hrc, update_other hal (hi.aligned_out hq.1) hq.2]
        exact c2 q hq.1

/-! ## Facts about the concrete states -/

theorem demoState_free : FreeList demoState [8192, 4096] := by
  refine ⟨⟨rfl, by decide, ?_, by decide, ?_⟩, ?_⟩
  · simp [read64, demoState]
  · simp [linked, read64, demoState]
  · intro p hp
    simp at hp
    rcases hp with e | e <;> subst e <;> simp [PGSIZE]

/-! ## Runs -/

theorem run_suffix {L : Layout} {ok : Nat → Prop} {a b : Nat} {t1 : List Event} :
    ∀ (t2 : List Event) (s : KState), Run L ok a b (t2 ++ t1) s →
      ∃ s1, Run L ok a b t1 s1
  | [], s, h => ⟨s, h⟩
  | _ :: t2, _, h => by
    cases h with
    | kalloc h1 _ => exact run_suffix t2 _ h1
    | incr _ h1 _ => exact run_suffix t2 _ h1
    | kfree _ h1 _ _ => exact run_suffix t2 _ h1

theorem mem_outstanding_append {p : Nat} {t1 : List Event} (hp : p ∈ outstanding t1) :
    ∀ t2 : List Event, Event.release p true ∉ t2 → p ∈ outstanding (t2 ++ t1)
  | [], _ => hp
  | e :: t2, hno => by
    have ih := mem_outstanding_append hp t2 (fun h => hno (List.mem_cons_of_mem _ h))
    cases e with
    | alloc q =>
      simp only [List.cons_append, outstanding]
      split
      · exact ih
      · exact List.mem_cons_of_mem _ ih
    | incr q => exact ih
    | release q last =>
      simp only [List.cons_append, outstanding]
      cases last with
      | false => exact ih
      | true =>
        simp only [if_true, List.mem_filter, decide_eq_true_eq]
        refine ⟨ih, fun e => hno ?_⟩
        rw [e]
        exact List.mem_cons_self _ _

/-- A page that `kalloc` returns was not outstanding. -/
theorem alloc_not_outstanding {L : Layout} (h0 : 0 < L.kend) (h64 : L.PHYSTOP ≤ 2 ^ 64)
    {ok : Nat → Prop} {a b : Nat} {t : List Event} {s : KState} {p : Nat}
    (hrun : Run L ok a b (.alloc p :: t) s) (hp : p ≠ 0) : p ∉ outstanding t := by
  cases hrun with
  | kalloc h1 hka =>
    obtain ⟨l, hi, _⟩ := run_inv h0 h64 h1
    rcases inv_kalloc hi hka with ⟨e, _⟩ | ⟨_, rest, hl, _⟩
    · exact absurd e hp
    · exact hi.disjoint p (by rw [hl]; exact List.mem_cons_self _ _)

theorem outstanding_incrs (pa : Nat) (t : List Event) :
    ∀ n : Nat, outstanding (List.replicate n (Event.incr pa) ++ t) = outstanding t
  | 0 => rfl
  | n + 1 => by
    rw [List.replicate_succ, List.cons_append]
    exact outstanding_incrs pa t n

/-- Incrementing a counter that holds 1 again and again: after `n` increments,
`n` at most `2 ^ 32 - 1`, it holds `(1 + n) % 2 ^ 32`; every one of these calls
is on a counter of at least one. -/
theorem run_incrs {L : Layout} {a b : Nat} {t : List Event} {s : KState} (pa : Nat)
    (hrun : Run L owned a b t s) (h1 : s.reference_counter (pa / PGSIZE) = 1) :
    ∀ n : Nat, n ≤ 2 ^ 32 - 1 →
      ∃ s1, Run L owned a b (List.replicate n (Event.incr pa) ++ t) s1 ∧
        s1.reference_counter (pa / PGSIZE) = (1 + n) % 2 ^ 32 ∧
        s1.freelist = s.freelist ∧ s1.mem = s.mem ∧
        ∀ f, f ≠ pa / PGSIZE → s1.reference_counter f = s.reference_counter f
  | 0, _ => ⟨s, hrun, by rw [h1]; rfl, rfl, rfl, fun _ _ => rfl⟩
  | n + 1, hn => by
    obtain ⟨s1, r1, c1, f1, m1, o1⟩ := run_incrs pa hrun h1 n (by omega)
    have hlt : 1 + n < 2 ^ 32 := by omega
    rw [Nat.mod_eq_of_lt hlt] at c1
    refine ⟨ref_counter_incr s1 pa, ?_, ?_, f1, m1, ?_⟩
    · rw [List.replicate_succ, List.cons_append]
      exact Run.incr pa r1 (by unfold owned; omega)
    · show Function.update s1.reference_counter (pa / PGSIZE) _ (pa / PGSIZE) = _
      rw [Function.update_same, c1]
      ring_nf
    · intro f hf
      show Function.update s1.reference_counter (pa / PGSIZE) _ f = _
      rw [Function.update_noteq hf]
      exact o1 f hf

/-! ## Facts about the concrete run -/

theorem demoBoot_boot : Boot demoBoot := ⟨rfl, fun _ => rfl, rfl, rfl⟩

theorem demo_rangePages : rangePages 4096 16384 = [4096, 8192, 12288] := by
  decide

theorem demo_init (ok : Nat → Prop) :
    Run demoL ok 4096 16384 [] demoInit ∧
      Inv demoL 4096 16384 [] demoInit [12288, 8192, 4096] ∧
      ∀ f, demoInit.reference_counter f = 0 := by
  obtain ⟨s, e⟩ := freerange_total (L := demoL) (a := 4096) (b := 16384) demoBoot_boot
    (by decide) (by decide) (by decide) (by decide)
  have hs : demoInit = s := by
    unfold demoInit
    rw [e]
    rfl
  rw [hs]
  have hi := (inv_init (L := demoL) (by decide) (by decide) demoBoot_boot e).1
  rw [demo_rangePages] at hi
  exact ⟨Run.init demoBoot_boot e, hi,
    (freerange_boot (L := demoL) (by decide) (by decide) demoBoot_boot e).2.1⟩

theorem demo_a1 (ok : Nat → Prop) :
    Run demoL ok 4096 16384 [.alloc 12288] demoA1 ∧
      Inv demoL 4096 16384 [.alloc 12288] demoA1 [8192, 4096] ∧
      demoA1.reference_counter (12288 / PGSIZE) = 1 ∧
      ∀ f, f ≠ 12288 / PGSIZE → demoA1.reference_counter f = 0 := by
  obtain ⟨r0, i0, c0⟩ := demo_init ok
  have hf : demoInit.freelist = 12288 := i0.free.1.1
  obtain ⟨s, e, _⟩ := kalloc_some demoInit i0.kmem_free (by rw [hf]; decide)
  rw [hf] at e
  have hs : demoA1 = s := by
    unfold demoA1
    rw [e]
    rfl
  rw [hs]
  rcases inv_kalloc i0 e with ⟨h, _⟩ | ⟨_, rest, hl, i1, hrc⟩
  · exact absurd h (by decide)
  · have hrest : rest = [8192, 4096] := by
      injection hl with _ h
      exact h.symm
    rw [hrest] at i1
    refine ⟨Run.kalloc r0 e, i1, ?_, fun f hf => ?_⟩
    · rw [hrc, Function.update_same]
    · rw [hrc, Function.update_noteq hf, c0]

theorem demo_a2 {ok : Nat → Prop} (hok : ok 1) :
    Run demoL ok 4096 16384 [.incr 12288, .alloc 12288] demoA2 ∧
      Inv demoL 4096 16384 [.incr 12288, .alloc 12288] demoA2 [8192, 4096] ∧
      demoA2.reference_counter (12288 / PGSIZE) = 2 := by
  obtain ⟨r1, i1, c1, _⟩ := demo_a1 ok
  refine ⟨Run.incr 12288 r1 (by rw [c1]; exact hok), inv_incr 12288 i1, ?_⟩
  have h : demoA2.reference_counter =
      Function.update demoA1.reference_counter (12288 / PGSIZE)
        ((demoA1.reference_counter (12288 / PGSIZE) + 1) % 2 ^ 32) := rfl
  rw [h, Function.update_same, c1]
  decide

theorem demo_a3 {ok : Nat → Prop} (hok : ok 1) :
    Run demoL ok 4096 16384 [.release 12288 false, .incr 12288, .alloc 12288] demoA3 ∧
      Inv demoL 4096 16384 [.release 12288 false, .incr 12288, .alloc 12288] demoA3
        [8192, 4096] := by
  obtain ⟨r2, i2, c2⟩ := demo_a2 hok
  obtain ⟨s, e, _⟩ := kfree_shared demoL demoA2 12288 i2.ref_free (by rw [c2]; decide)
  have hs : demoA3 = s := by
    unfold demoA3
    rw [e]
    rfl
  rw [hs]
  have hout : 12288 ∈ outstanding [.incr 12288, .alloc 12288] := by decide
  have hd : decide (demoA2.reference_counter (12288 / PGSIZE) ≤ 1) = false := by
    rw [c2]
    decide
  have r3 : Run demoL ok 4096 16384 _ _ := Run.kfree 12288 r2 hout e
  rcases inv_kfree (L := demoL) (by decide) (by decide) i2 hout e with
    ⟨_, i3, _⟩ | ⟨hle, _, _⟩
  · rw [hd] at r3 i3
    exact ⟨r3, i3⟩
  · rw [c2] at hle
    exact absurd hle (by decide)

theorem demo_a4 {ok : Nat → Prop} (hok : ok 1) :
    Run demoL ok 4096 16384
      [.alloc 8192, .release 12288 false, .incr 12288, .alloc 12288] demoA4 := by
  obtain ⟨r3, i3⟩ := demo_a3 hok
  have hf : demoA3.freelist = 8192 := i3.free.1.1
  obtain ⟨s, e, _⟩ := kalloc_some demoA3 i3.kmem_free (by rw [hf]; decide)
  rw [hf] at e
  have hs : demoA4 = s := by
    unfold demoA4
    rw [e]
    rfl
  rw [hs]
  exact Run.kalloc r3 e

theorem demo_b2 (ok : Nat → Prop) :
    Run demoL ok 4096 16384 [.release 12288 true, .alloc 12288] demoB2 ∧
      Inv demoL 4096 16384 [.release 12288 true, .alloc 12288] demoB2
        [12288, 8192, 4096] := by
  obtain ⟨r1, i1, c1, _⟩ := demo_a1 ok
  obtain ⟨s, e, _⟩ := kfree_last demoL demoA1 12288 i1.ref_free i1.kmem_free
    (by rw [c1]) (by decide) (by decide) (by decide)
  have hs : demoB2 = s := by
    unfold demoB2
    rw [e]
    rfl
  rw [hs]
  have hout : 12288 ∈ outstanding [.alloc 12288] := by decide
  have hd : decide (demoA1.reference_counter (12288 / PGSIZE) ≤ 1) = true := by
    rw [c1]
    decide
  have r2 : Run demoL ok 4096 16384 _ _ := Run.kfree 12288 r1 hout e
  rcases inv_kfree (L := demoL) (by decide) (by decide) i1 hout e with
    ⟨hgt, _, _⟩ | ⟨_, i2, _⟩
  · rw [c1] at hgt
    exact absurd hgt (by decide)
  · rw [hd] at r2 i2
    exact ⟨r2, i2⟩

theorem demo_b3 (ok : Nat → Prop) :
    Run demoL ok 4096 16384 [.alloc 12288, .release 12288 true, .alloc 12288] demoB3 := by
  obtain ⟨r2, i2⟩ := demo_b2 ok
  have hf : demoB2.freelist = 12288 := i2.free.1.1
  obtain ⟨s, e, _⟩ := kalloc_some demoB2 i2.kmem_free (by rw [hf]; decide)
  rw [hf] at e
  have hs : demoB3 = s := by
    unfold demoB3
    rw [e]
    rfl
  rw [hs]
  exact Run.kalloc r2 e

/-- The run in which page 12288 is allocated and its counter is then
incremented `2 ^ 32 - 1` times: the counter is back at 0, the page is still
outstanding, and the free list is still 8192, 4096. -/
theorem demo_wrap :
    ∃ s, Run demoL owned 4096 16384
        (List.replicate 4294967295 (Event.incr 12288) ++ [Event.alloc 12288]) s ∧
      FreeList s [8192, 4096] ∧ ∀ f, s.reference_counter f = 0 := by
  obtain ⟨r1, i1, c1, o1⟩ := demo_a1 owned
  obtain ⟨s, r, c, hf, hm, o⟩ := run_incrs 12288 r1 c1 4294967295 (by decide)
  refine ⟨s, r, FreeList.same i1.free hf hm, fun f => ?_⟩
  by_cases h : f = 12288 / PGSIZE
  · rw [h, c]
    decide
  · rw [o f h, o1 f h]

theorem owned_one : owned 1 := Nat.le_refl 1

/-- In a run, a page that was allocated, incremented once and released once was
released without being reclaimed. -/
theorem shared_release_keeps {L : Layout} (h0 : 0 < L.kend) (h64 : L.PHYSTOP ≤ 2 ^ 64)
    {ok : Nat → Prop} {a b : Nat} {t0 : List Event} {p : Nat} {x : Bool} {s : KState}
    (hp : p ≠ 0)
    (hrun : Run L ok a b (Event.release p x :: Event.incr p :: Event.alloc p :: t0) s) :
    x = false := by
  cases hrun with
  | kfree _ h1 _ _ =>
    cases h1 with
    | incr _ h2 _ =>
      cases h2 with
      | kalloc h3 hka =>
        obtain ⟨l, hi, _⟩ := run_inv h0 h64 h3
        rcases inv_kalloc hi hka with ⟨e, _⟩ | ⟨_, _, _, _, hrc⟩
        · exact absurd e hp
        · simp only [ref_counter_incr, hrc, Function.update_same, decide_eq_false_iff_not]
          decide

/-! ## The claims -/

/-- C1 (no double allocation). In every single-threaded run that starts with
`freerange` on a boot state and continues with `kalloc`, `ref_counter_incr` (on
a counter of at least one) and `kfree` (on an outstanding page), if two `kalloc`
calls return the same non-null address `p`, then between them a `kfree(p)`
released the page down to counter zero. The history is written newest first:
`t1` is what came before the first of the two calls, `t2` what came between
them, `t3` what came after the second. -/
theorem no_double_allocation (L : Layout) (h0 : 0 < L.kend) (h64 : L.PHYSTOP ≤ 2 ^ 64)
    (a b : Nat) (t1 t2 t3 : List Event) (p : Nat) (s : KState)
    (hrun : Run L owned a b (t3 ++ Event.alloc p :: (t2 ++ Event.alloc p :: t1)) s)
    (hp : p ≠ 0) : Event.release p true ∈ t2 := by
  by_contra hno
  obtain ⟨s1, r1⟩ := run_suffix t3 s hrun
  have h1 := alloc_not_outstanding h0 h64 r1 hp
  have h2 : p ∈ outstanding (Event.alloc p :: t1) := by
    simp only [outstanding, if_neg hp]
    exact List.mem_cons_self _ _
  exact h1 (mem_outstanding_append h2 t2 hno)

/-- On the small machine: `kalloc` returns 12288, `kfree(12288)` reclaims it,
and `kalloc` returns 12288 again. -/
theorem no_double_allocation_witness :
    Run demoL owned 4096 16384
        ([] ++ Event.alloc 12288 :: ([Event.release 12288 true] ++ Event.alloc 12288 :: []))
        demoB3 ∧
      Event.release 12288 true ∈ [Event.release 12288 true] :=
  ⟨demo_b3 owned,
    no_double_allocation demoL (by decide) (by decide) 4096 16384 []
      [Event.release 12288 true] [] 12288 demoB3 (demo_b3 owned) (by decide)⟩

/-- C2 as stated fails: on the small machine, after `kalloc` returned 12288 and
its counter was incremented `2 ^ 32 - 1` times (each time on a counter of at
least one), the 32-bit counter is 0 although the page is allocated and not on
the free list. -/
theorem counter_zero_while_allocated :
    ∃ s, Run demoL owned 4096 16384
        (List.replicate 4294967295 (Event.incr 12288) ++ [Event.alloc 12288]) s ∧
      12288 ∈ rangePages 4096 16384 ∧ s.reference_counter (12288 / PGSIZE) = 0 ∧
      12288 ∈ outstanding
        (List.replicate 4294967295 (Event.incr 12288) ++ [Event.alloc 12288]) ∧
      ∀ l, FreeList s l → 12288 ∉ l := by
  obtain ⟨s, r, hl, hc⟩ := demo_wrap
  refine ⟨s, r, by rw [demo_rangePages]; decide, hc _, ?_, fun l h => ?_⟩
  · rw [outstanding_incrs]
    decide
  · rw [FreeList.unique h hl]
    decide

/-- C2 (counter/free-list agreement, amended). In every state reached from
`freerange` by `kalloc`, `ref_counter_incr` on a counter that is at least one
and below the largest `uint`, and `kfree` on an outstanding page, for every page
of the range the counter is 0 exactly when the page is on the free list and at
least 1 exactly when it is allocated; no page is both, and none is neither. -/
theorem counter_freelist_agreement (L : Layout) (h0 : 0 < L.kend)
    (h64 : L.PHYSTOP ≤ 2 ^ 64) (a b : Nat) (t : List Event) (s : KState)
    (hrun : Run L ownedNoWrap a b t s) :
    ∃ l, FreeList s l ∧ ∀ p ∈ rangePages a b,
      (s.reference_counter (p / PGSIZE) = 0 ↔ p ∈ l) ∧
      (1 ≤ s.reference_counter (p / PGSIZE) ↔ p ∈ outstanding t) ∧
      ¬ (p ∈ l ∧ p ∈ outstanding t) ∧ (p ∈ l ∨ p ∈ outstanding t) := by
  obtain ⟨l, hi, hc⟩ := run_inv h0 h64 hrun
  obtain ⟨c1, c2⟩ := hc (fun _ h => h)
  refine ⟨l, hi.free, fun p hp => ?_⟩
  have hcov := (hi.cover p).1 hp
  refine ⟨⟨fun hz => ?_, c1 p⟩, ⟨fun hz => ?_, c2 p⟩, fun h => hi.disjoint p h.1 h.2, hcov⟩
  · rcases hcov with h | h
    · exact h
    · have := c2 p h
      omega
  · rcases hcov with h | h
    · have := c1 p h
      omega
    · exact h

/-- The agreement on the small machine after one `kalloc`. -/
theorem counter_freelist_agreement_witness :
    Run demoL ownedNoWrap 4096 16384 [Event.alloc 12288] demoA1 ∧
    ∃ l, FreeList demoA1 l ∧ ∀ p ∈ rangePages 4096 16384,
      (demoA1.reference_counter (p / PGSIZE) = 0 ↔ p ∈ l) ∧
      (1 ≤ demoA1.reference_counter (p / PGSIZE) ↔ p ∈ outstanding [Event.alloc 12288]) ∧
      ¬ (p ∈ l ∧ p ∈ outstanding [Event.alloc 12288]) ∧
      (p ∈ l ∨ p ∈ outstanding [Event.alloc 12288]) :=
  ⟨(demo_a1 ownedNoWrap).1,
    counter_freelist_agreement demoL (by decide) (by decide) 4096 16384 _ demoA1
      (demo_a1 ownedNoWrap).1⟩

/-- C3 as stated fails: on the small machine, after `kalloc` returned 12288 and
its counter was incremented `2 ^ 32 - 1` times, the free
list has 2 pages and no page of the range has a counter of at least one, but the
range has 3 pages. -/
theorem conservation_fails_after_wrap :
    ∃ s l, Run demoL owned 4096 16384
        (List.replicate 4294967295 (Event.incr 12288) ++ [Event.alloc 12288]) s ∧
      FreeList s l ∧
      l.length + ((rangePages 4096 16384).filter
        (fun p => decide (1 ≤ s.reference_counter (p / PGSIZE)))).length = 2 ∧
      (rangePages 4096 16384).length = 3 := by
  obtain ⟨s, r, hl, hc⟩ := demo_wrap
  refine ⟨s, [8192, 4096], r, hl, ?_, by rw [demo_rangePages]; rfl⟩
  have : (rangePages 4096 16384).filter
      (fun p => decide (1 ≤ s.reference_counter (p / PGSIZE))) = [] := by
    rw [List.filter_eq_nil_iff]
    intro p _
    rw [hc]
    decide
  rw [this]
  rfl

/-- C3 (pages are conserved, amended). In every state reached from `freerange(a, b)` by
`kalloc`, `ref_counter_incr` on a counter that is at least one and below the
largest `uint`, and `kfree` on an outstanding page, the length of the free list
plus the number of pages of the range whose counter is at least one is the
number of pages of the range. -/
theorem conservation (L : Layout) (h0 : 0 < L.kend) (h64 : L.PHYSTOP ≤ 2 ^ 64)
    (a b : Nat) (t : List Event) (s : KState) (hrun : Run L ownedNoWrap a b t s) :
    ∃ l, FreeList s l ∧
      l.length + ((rangePages a b).filter
        (fun p => decide (1 ≤ s.reference_counter (p / PGSIZE)))).length =
      (rangePages a b).length := by
  obtain ⟨l, hi, hc⟩ := run_inv h0 h64 hrun
  obtain ⟨c1, c2⟩ := hc (fun _ h => h)
  refine ⟨l, hi.free, ?_⟩
  have hnd : (rangePages a b).Nodup := rangePages_nodup _ _
  have hperm : List.Perm l ((rangePages a b).filter
      (fun p => ! decide (1 ≤ s.reference_counter (p / PGSIZE)))) := by
    rw [List.perm_ext_iff_of_nodup (linked_nodup _ _ hi.free.1) (hnd.filter _)]
    intro p
    simp only [List.mem_filter, Bool.not_eq_true', decide_eq_false_iff_not, not_le,
      Nat.lt_one_iff]
    constructor
    · intro hp
      exact ⟨(hi.cover p).2 (Or.inl hp), c1 p hp⟩
    · rintro ⟨hp, hz⟩
      rcases (hi.cover p).1 hp with h | h
      · exact h
      · have := c2 p h
        omega
  rw [hperm.length_eq,
    List.length_eq_length_filter_add (l := rangePages a b)
      (fun p => decide (1 ≤ s.reference_counter (p / PGSIZE)))]
  omega

/-- Conservation on the small machine after one `kalloc`: 2 free pages and 1
allocated page out of 3. -/
theorem conservation_witness :
    Run demoL ownedNoWrap 4096 16384 [Event.alloc 12288] demoA1 ∧
    ∃ l, FreeList demoA1 l ∧
      l.length + ((rangePages 4096 16384).filter
        (fun p => decide (1 ≤ demoA1.reference_counter (p / PGSIZE)))).length =
      (rangePages 4096 16384).length :=
  ⟨(demo_a1 ownedNoWrap).1,
    conservation demoL (by decide) (by decide) 4096 16384 _ demoA1 (demo_a1 ownedNoWrap).1⟩

/-- C4 (shared-page retention). For every address `pa` whose counter is `n > 1`,
`kfree(pa)`, entered without `ref_count.lock` held, returns without a fault,
leaves the free list and memory unchanged and leaves the counter at `n - 1`. In
particular, in a run (newest call first) in which `kalloc` returned `p`, `p` was
incremented once and released once, and `t2` holds the later calls, none of them
a release of `p`: that release did not reclaim the page, `p` is not on the free
list, and no later `kalloc` returned `p`. -/
theorem kfree_shared_retention (L : Layout) (s : KState) (pa n : Nat)
    (hr : s.ref_lock = false) (hn : s.reference_counter (pa / PGSIZE) = n) (h1 : 1 < n) :
    (∃ s1, kfree L s pa = .ok s1 ∧ s1.freelist = s.freelist ∧ s1.mem = s.mem ∧
      s1.reference_counter (pa / PGSIZE) = n - 1) ∧
    ∀ (a b : Nat) (t0 t2 : List Event) (p : Nat) (x : Bool) (s2 : KState),
      0 < L.kend → L.PHYSTOP ≤ 2 ^ 64 → p ≠ 0 →
      Run L owned a b
        (t2 ++ Event.release p x :: Event.incr p :: Event.alloc p :: t0) s2 →
      (∀ y, Event.release p y ∉ t2) →
      x = false ∧ (∀ l, FreeList s2 l → p ∉ l) ∧ Event.alloc p ∉ t2 := by
  constructor
  · obtain ⟨s1, e, hf, hm, hc, _⟩ := kfree_shared L s pa hr (by rw [hn]; exact h1)
    refine ⟨s1, e, hf, hm, ?_⟩
    rw [hc, Function.update_same, hn]
  · intro a b t0 t2 p x s2 h0 h64 hp hrun hno
    obtain ⟨s3, r3⟩ := run_suffix t2 s2 hrun
    have hx := shared_release_keeps h0 h64 hp r3
    subst hx
    have hout : p ∈ outstanding (Event.release p false :: Event.incr p ::
        Event.alloc p :: t0) := by
      simp only [outstanding, if_neg hp]
      exact List.mem_cons_self _ _
    refine ⟨rfl, fun l hl hin => ?_, fun hin => ?_⟩
    · obtain ⟨l0, hi, _⟩ := run_inv h0 h64 hrun
      rw [FreeList.unique hl hi.free] at hin
      exact hi.disjoint p hin (mem_outstanding_append hout t2 (hno true))
    · obtain ⟨u, v, e⟩ := List.append_of_mem hin
      rw [e, List.append_assoc, List.cons_append] at hrun
      obtain ⟨s4, r4⟩ := run_suffix u s2 hrun
      have hv : Event.release p true ∉ v := by
        intro h
        apply hno true
        rw [e]
        exact List.mem_append_right _ (List.mem_cons_of_mem _ h)
      exact alloc_not_outstanding h0 h64 r4 hp (mem_outstanding_append hout v hv)

/-- Releasing the shared page 12288 of `demoState` (counter 2); and the run on
the small machine in which 12288 is allocated, incremented and released once,
after which `kalloc` returns 8192. -/
theorem kfree_shared_retention_witness :
    (∃ s1, kfree demoL demoState 12288 = .ok s1 ∧ s1.freelist = demoState.freelist ∧
      s1.mem = demoState.mem ∧ s1.reference_counter (12288 / PGSIZE) = 2 - 1) ∧
    Run demoL owned 4096 16384
      ([Event.alloc 8192] ++ Event.release 12288 false :: Event.incr 12288 ::
        Event.alloc 12288 :: []) demoA4 ∧
    (∀ l, FreeList demoA4 l → 12288 ∉ l) ∧ Event.alloc 12288 ∉ [Event.alloc 8192] :=
  ⟨(kfree_shared_retention demoL demoState 12288 2 rfl (by decide) (by decide)).1,
    demo_a4 owned_one,
    ((kfree_shared_retention demoL demoState 12288 2 rfl (by decide) (by decide)).2
      4096 16384 [] [Event.alloc 8192] 12288 false demoA4 (by decide) (by decide)
      (by decide) (demo_a4 owned_one) (by decide)).2⟩

/-- C5 as stated fails on a page that is already on the free list: page 8192 of
`demoState` is page-aligned, inside the universe and has counter 0, yet after
`kfree(8192)` the link of 8192 points back at 8192, so the links no longer end:
no list of pages, and in particular not 8192 followed by the previous list, is
the free list. The first byte of the page holds the link, not the pattern. -/
theorem kfree_twice_breaks_list :
    FreeList demoState [8192, 4096] ∧ 8192 % PGSIZE = 0 ∧ demoL.kend ≤ 8192 ∧
      8192 < demoL.PHYSTOP ∧ demoState.reference_counter (8192 / PGSIZE) ≤ 1 ∧
      ∃ s1, kfree demoL demoState 8192 = .ok s1 ∧ (∀ l, ¬ FreeList s1 l) ∧
        s1.mem 8192 = 0 := by
  refine ⟨demoState_free, by decide, by decide, by decide, by decide, ?_⟩
  obtain ⟨s1, e, h1, h2, _⟩ :=
    kfree_last demoL demoState 8192 rfl rfl (by decide) (by decide) (by decide) (by decide)
  have hloop : read64 s1.mem 8192 = 8192 := by
    rw [h2]
    exact read64_write64 _ _ _ (by decide)
  refine ⟨s1, e, ?_, ?_⟩
  · intro l hl
    have key : ∀ l : List Nat, ¬ linked s1.mem 8192 l := by
      intro l
      induction l with
      | nil =>
        intro h
        exact absurd (show (8192 : Nat) = 0 from h) (by decide)
      | cons q l ih =>
        intro h
        obtain ⟨e1, _, h3⟩ := h
        rw [← e1, hloop] at h3
        exact ih h3
    have h3 := hl.1
    rw [h1] at h3
    exact key l h3
  · rw [h2]
    simp [write64, demoState]

/-- C5 (reclaim on last release, amended). For a page-aligned address `pa`
inside the universe whose counter is at most one and which is not already on the
free list, `kfree(pa)`, entered with neither lock held, returns, leaves that
counter at 0, fills the page with the byte 1 and then stores the link to the
previous head in its first eight bytes, so that the new free list is `pa`
followed by the previous free list. The pattern differs from the byte 5 that
`kalloc` writes. -/
theorem kfree_reclaims (L : Layout) (s : KState) (pa : Nat) (l : List Nat)
    (h0 : 0 < L.kend) (h64 : L.PHYSTOP ≤ 2 ^ 64)
    (hr : s.ref_lock = false) (hk : s.kmem_lock = false)
    (ha : pa % PGSIZE = 0) (hlo : L.kend ≤ pa) (hhi : pa < L.PHYSTOP)
    (hc : s.reference_counter (pa / PGSIZE) ≤ 1)
    (hl : FreeList s l) (hnot : pa ∉ l) :
    ∃ s1, kfree L s pa = .ok s1 ∧ s1.reference_counter (pa / PGSIZE) = 0 ∧
      s1.mem = write64 (memset s.mem pa 1 PGSIZE) pa s.freelist ∧
      (∀ x, pa + 8 ≤ x → x < pa + PGSIZE → s1.mem x = 1) ∧
      read64 s1.mem pa = s.freelist ∧
      (∀ x, x < pa ∨ pa + PGSIZE ≤ x → s1.mem x = s.mem x) ∧
      FreeList s1 (pa :: l) ∧
      ∀ (s2 s3 : KState) (p : Nat), kalloc s2 = .ok (p, s3) → p ≠ 0 →
        ∀ x, p ≤ x → x < p + PGSIZE → s3.mem x = 5 := by
  obtain ⟨s1, e, h1, h2, h3, _, _⟩ := kfree_last L s pa hr hk hc ha hlo hhi
  have hhead : s.freelist < 2 ^ 64 :=
    linked_head_lt hl.1 (fun p hp => (hl.2 p hp).2) (by norm_num)
  refine ⟨s1, e, ?_, h2, ?_, ?_, ?_, ?_, ?_⟩
  · rw [h3, Function.update_same]
  · intro x hx1 hx2
    rw [h2, write64_outside (Or.inr hx1), memset_inside (by omega) hx2]
  · rw [h2]
    exact read64_write64 _ _ _ hhead
  · intro x hx
    rw [h2, write64_outside, memset_outside hx]
    simp only [PGSIZE] at hx
    omega
  · exact FreeList.push hl hnot ha (by omega) (by omega) h1 h2
  · intro s2 s3 p hka hp x hx1 hx2
    by_cases hk2 : s2.kmem_lock = false
    · by_cases hf : s2.freelist = 0
      · obtain ⟨s4, e4, _⟩ := kalloc_none s2 hk2 hf
        rw [e4] at hka
        injection hka with hka
        injection hka with hp0 _
        exact absurd hp0.symm hp
      · obtain ⟨s4, e4, _, hm, _⟩ := kalloc_some s2 hk2 hf
        rw [e4] at hka
        injection hka with hka
        injection hka with hp0 hs
        subst hs
        rw [hm, hp0, memset_inside hx1 hx2]
    · have hk3 : s2.kmem_lock = true := by
        cases h : s2.kmem_lock
        · exact absurd h hk2
        · rfl
      simp [kalloc, acquireKmem, hk3] at hka

/-- Releasing page 12288 of `demoSingle`, which has one owner and is not on the
free list 8192, 4096. -/
theorem kfree_reclaims_witness :
    FreeList demoSingle [8192, 4096] ∧ 12288 ∉ [8192, 4096] ∧
    ∃ s1, kfree demoL demoSingle 12288 = .ok s1 ∧
      s1.reference_counter (12288 / PGSIZE) = 0 ∧
      s1.mem = write64 (memset demoSingle.mem 12288 1 PGSIZE) 12288 demoSingle.freelist ∧
      (∀ x, 12288 + 8 ≤ x → x < 12288 + PGSIZE → s1.mem x = 1) ∧
      read64 s1.mem 12288 = demoSingle.freelist ∧
      (∀ x, x < 12288 ∨ 12288 + PGSIZE ≤ x → s1.mem x = demoSingle.mem x) ∧
      FreeList s1 [12288, 8192, 4096] ∧
      ∀ (s2 s3 : KState) (p : Nat), kalloc s2 = .ok (p, s3) → p ≠ 0 →
        ∀ x, p ≤ x → x < p + PGSIZE → s3.mem x = 5 :=
  ⟨demoState_free, by decide,
    kfree_reclaims demoL demoSingle 12288 [8192, 4096] (by decide) (by decide) rfl rfl
      (by decide) (by decide) (by decide) (by decide) demoState_free (by decide)⟩

/-- C6 as stated fails on a shared page: 12289 is not a multiple of the page
size, yet `kfree(12289)` on `demoState`, where frame 3 has counter 2, returns
normally after taking that counter down to 1. -/
theorem kfree_misaligned_shared_returns :
    12289 % PGSIZE ≠ 0 ∧ demoState.reference_counter (12289 / PGSIZE) = 2 ∧
      ∃ s1, kfree demoL demoState 12289 = .ok s1 ∧
        s1.reference_counter (12289 / PGSIZE) = 1 := by
  refine ⟨by decide, by decide, ?_⟩
  obtain ⟨s1, e, _, _, h3, _⟩ := kfree_shared demoL demoState 12289 rfl (by decide)
  refine ⟨s1, e, ?_⟩
  rw [h3, Function.update_same]
  decide

/-- C6 (fatal on misuse, amended). For every address `pa` that is not a multiple
of the page size or lies outside the universe, and whose frame has a counter of
at most one, `kfree(pa)`, entered without `ref_count.lock` held, panics. -/
theorem kfree_fatal_on_misuse (L : Layout) (s : KState) (pa : Nat)
    (hr : s.ref_lock = false) (hc : s.reference_counter (pa / PGSIZE) ≤ 1)
    (hbad : pa % PGSIZE ≠ 0 ∨ pa < L.kend ∨ L.PHYSTOP ≤ pa) :
    kfree L s pa = .error .panic :=
  kfree_invalid L s pa hr hc hbad

/-- The fatal path on the misaligned address 4097 of the free page 4096. -/
theorem kfree_fatal_on_misuse_witness :
    (4097 % PGSIZE ≠ 0 ∨ 4097 < demoL.kend ∨ demoL.PHYSTOP ≤ 4097) ∧
      kfree demoL demoState 4097 = .error .panic :=
  ⟨Or.inl (by decide),
    kfree_fatal_on_misuse demoL demoState 4097 rfl (by decide) (Or.inl (by decide))⟩

/-- C7 (decrement contract). For every address `pa` and every counter table,
`ref_counter_decr(pa)` on a counter above one stores the counter minus one and
returns `0`; on a counter of at most one it stores `0` and returns `-1`; in both
cases the counter of every other frame is unchanged. -/
theorem ref_counter_decr_contract (s : KState) (pa : Nat) :
    (1 < s.reference_counter (pa / PGSIZE) →
      (ref_counter_decr s pa).1 = 0 ∧
      (ref_counter_decr s pa).2.reference_counter (pa / PGSIZE) =
        s.reference_counter (pa / PGSIZE) - 1) ∧
    (s.reference_counter (pa / PGSIZE) ≤ 1 →
      (ref_counter_decr s pa).1 = -1 ∧
      (ref_counter_decr s pa).2.reference_counter (pa / PGSIZE) = 0) ∧
    ∀ f, f ≠ pa / PGSIZE →
      (ref_counter_decr s pa).2.reference_counter f = s.reference_counter f := by
  refine ⟨fun h => ?_, fun h => ?_, fun f hf => ?_⟩
  · simp [ref_counter_decr, h]
  · have h1 : ¬ 1 < s.reference_counter (pa / PGSIZE) := by omega
    simp [ref_counter_decr, h1]
  · by_cases h : 1 < s.reference_counter (pa / PGSIZE) <;>
      simp [ref_counter_decr, h, Function.update_noteq hf]

/-- The decrement contract on the shared page 12288 of `demoState` (counter 2,
which becomes 1) and on the free page 8192 (counter 0, which stays 0). -/
theorem ref_counter_decr_contract_witness :
    ((ref_counter_decr demoState 12288).1 = 0 ∧
      (ref_counter_decr demoState 12288).2.reference_counter (12288 / PGSIZE) =
        demoState.reference_counter (12288 / PGSIZE) - 1) ∧
    ((ref_counter_decr demoState 8192).1 = -1 ∧
      (ref_counter_decr demoState 8192).2.reference_counter (8192 / PGSIZE) = 0) :=
  ⟨(ref_counter_decr_contract demoState 12288).1 (by decide),
    (ref_counter_decr_contract demoState 8192).2.1 (by decide)⟩

/-- C8 (allocate on success). In every state whose free list is `p :: rest`,
entered without `kmem.lock` held, `kalloc` returns `p`, the free list becomes
`rest`, the counter of frame `p / PGSIZE` becomes exactly 1 and the counter of
every other frame is unchanged. -/
theorem kalloc_success (s : KState) (p : Nat) (rest : List Nat)
    (hk : s.kmem_lock = false) (hl : FreeList s (p :: rest)) :
    ∃ s1, kalloc s = .ok (p, s1) ∧ FreeList s1 rest ∧
      s1.reference_counter (p / PGSIZE) = 1 ∧
      ∀ f, f ≠ p / PGSIZE → s1.reference_counter f = s.reference_counter f := by
  have hq : s.freelist = p := hl.1.1
  obtain ⟨s1, e, h1, h2, h3, _, _⟩ := kalloc_some s hk (by rw [hq]; exact hl.1.2.1)
  rw [hq] at e h1 h2 h3
  refine ⟨s1, e, FreeList.pop hl h1 h2, ?_, fun f hf => ?_⟩
  · rw [h3, Function.update_same]
  · rw [h3, Function.update_noteq hf]

/-- On `demoState`, whose free list is 8192, 4096, `kalloc` returns 8192 and
leaves the free list 4096. -/
theorem kalloc_success_witness :
    demoState.kmem_lock = false ∧ FreeList demoState [8192, 4096] ∧
    ∃ s1, kalloc demoState = .ok (8192, s1) ∧ FreeList s1 [4096] ∧
      s1.reference_counter (8192 / PGSIZE) = 1 ∧
      ∀ f, f ≠ 8192 / PGSIZE → s1.reference_counter f = demoState.reference_counter f :=
  ⟨rfl, demoState_free, kalloc_success demoState 8192 [4096] rfl demoState_free⟩

/-- C9 (exhaustion is a value). In every state whose free list is empty, entered
without `kmem.lock` held, `kalloc` returns the null address without a fault and
leaves the free list, the whole counter table and all of memory unchanged. -/
theorem kalloc_exhausted (s : KState) (hk : s.kmem_lock = false) (hl : FreeList s []) :
    ∃ s1, kalloc s = .ok (0, s1) ∧ FreeList s1 [] ∧ s1.freelist = s.freelist ∧
      s1.reference_counter = s.reference_counter ∧ s1.mem = s.mem := by
  obtain ⟨s1, e, h1, h2, h3, _, _⟩ := kalloc_none s hk hl.1
  exact ⟨s1, e, FreeList.same hl h1 h2, h1, h3, h2⟩

/-- On `demoEmpty`, `kalloc` returns null and changes nothing. -/
theorem kalloc_exhausted_witness :
    demoEmpty.kmem_lock = false ∧ FreeList demoEmpty [] ∧
    ∃ s1, kalloc demoEmpty = .ok (0, s1) ∧ FreeList s1 [] ∧
      s1.freelist = demoEmpty.freelist ∧
      s1.reference_counter = demoEmpty.reference_counter ∧ s1.mem = demoEmpty.mem :=
  ⟨rfl, ⟨rfl, fun p hp => absurd hp (List.not_mem_nil p)⟩,
    kalloc_exhausted demoEmpty rfl ⟨rfl, fun p hp => absurd hp (List.not_mem_nil p)⟩⟩

/-- C10 as stated fails: on a counter holding the largest `uint`, 4294967295,
`ref_counter_incr` wraps it to 0 and `ref_counter_decr` then leaves 0, so the
prior value is not restored. -/
theorem refcount_bracket_wraps :
    demoFull.reference_counter (12288 / PGSIZE) = 4294967295 ∧
      (ref_counter_decr (ref_counter_incr demoFull 12288) 12288).2.reference_counter
        (12288 / PGSIZE) = 0 := by
  constructor
  · decide
  · simp [ref_counter_decr, ref_counter_incr, demoFull, demoState, PGSIZE]

/-- C10 (refcount bracket, amended). For any address `pa` whose counter is below
the largest `uint`, `ref_counter_incr(pa)` followed by `ref_counter_decr(pa)`
gives back the state before the increment: the counter table, the free list and
memory are all as they were. -/
theorem refcount_bracket (s : KState) (pa : Nat)
    (hc : s.reference_counter (pa / PGSIZE) + 1 < 2 ^ 32) :
    (ref_counter_decr (ref_counter_incr s pa) pa).2 = s ∧
      (ref_counter_decr (ref_counter_incr s pa) pa).2.reference_counter =
        s.reference_counter ∧
      (ref_counter_decr (ref_counter_incr s pa) pa).2.freelist = s.freelist ∧
      (ref_counter_decr (ref_counter_incr s pa) pa).2.mem = s.mem := by
  have key : (ref_counter_decr (ref_counter_incr s pa) pa).2 = s := by
    cases s with
    | mk mem freelist rc kl rl log =>
      simp only at hc
      by_cases h0 : rc (pa / PGSIZE) = 0
      · simp [ref_counter_decr, ref_counter_incr, h0]
      · have h1 : 1 < (rc (pa / PGSIZE) + 1) % 2 ^ 32 := by
          rw [Nat.mod_eq_of_lt hc]
          omega
        have h2 : rc (pa / PGSIZE) + 1 > 1 := by omega
        simp only [ref_counter_decr, ref_counter_incr, Function.update_same, h1, if_true,
          Function.update_idem, Nat.mod_eq_of_lt hc, Nat.add_sub_cancel,
          Function.update_eq_self, h2]
  rw [key]
  exact ⟨rfl, rfl, rfl, rfl⟩

/-- The bracket on the shared page 12288 of `demoState`, whose counter is 2. -/
theorem refcount_bracket_witness :
    (ref_counter_decr (ref_counter_incr demoState 12288) 12288).2 = demoState ∧
      (ref_counter_decr (ref_counter_incr demoState 12288) 12288).2.reference_counter =
        demoState.reference_counter ∧
      (ref_counter_decr (ref_counter_incr demoState 12288) 12288).2.freelist =
        demoState.freelist ∧
      (ref_counter_decr (ref_counter_incr demoState 12288) 12288).2.mem = demoState.mem :=
  refcount_bracket demoState 12288 (by decide)

/-! ## Further lemmas on runs -/

/-- In every run whose increments are on counters of at least one, the pages on
the free list have counter zero (also when counters of allocated pages wrap). -/
theorem run_free_zero {L : Layout} (h0 : 0 < L.kend) (h64 : L.PHYSTOP ≤ 2 ^ 64)
    {ok : Nat → Prop} (hok : ∀ c, ok c → 1 ≤ c) {a b : Nat} {t : List Event} {s : KState}
    (hrun : Run L ok a b t s) :
    ∃ l, Inv L a b t s l ∧ ∀ p ∈ l, s.reference_counter (p / PGSIZE) = 0 := by
  induction hrun with
  | init hb h =>
    exact ⟨_, (inv_init h0 h64 hb h).1, (inv_init h0 h64 hb h).2.1⟩
  | @kalloc t s s1 p _ h ih =>
    obtain ⟨l, hi, c1⟩ := ih
    rcases inv_kalloc hi h with ⟨_, _, hi1, hrc⟩ | ⟨_, rest, hl, hi1, hrc⟩
    · exact ⟨l, hi1, fun q hq => by rw [hrc]; exact c1 q hq⟩
    · refine ⟨rest, hi1, fun q hq => ?_⟩
      subst hl
      have hpa : p % PGSIZE = 0 := hi.aligned_free (List.mem_cons_self _ _)
      have hnd := List.nodup_cons.1 (linked_nodup _ _ hi.free.1)
      have hne : q ≠ p := fun e => hnd.1 (e ▸ hq)
      rw [hrc, update_other hpa (hi.aligned_free (List.mem_cons_of_mem _ hq)) hne]
      exact c1 q (List.mem_cons_of_mem _ hq)
  | @incr t s pa _ hg ih =>
    obtain ⟨l, hi, c1⟩ := ih
    refine ⟨l, inv_incr pa hi, fun q hq => ?_⟩
    have g1 := hok _ hg
    show Function.update s.reference_counter (pa / PGSIZE) _ (q / PGSIZE) = 0
    by_cases hf : q / PGSIZE = pa / PGSIZE
    · have := c1 q hq
      rw [hf] at this
      omega
    · rw [Function.update_noteq hf]
      exact c1 q hq
  | @kfree t s s1 pa _ hpa h ih =>
    obtain ⟨l, hi, c1⟩ := ih
    have hal : pa % PGSIZE = 0 := hi.aligned_out hpa
    rcases inv_kfree h0 h64 hi hpa h with ⟨_, hi1, hrc⟩ | ⟨_, hi1, hrc⟩
    · refine ⟨l, hi1, fun q hq => ?_⟩
      have hne : q ≠ pa := fun e => hi.disjoint q hq (e ▸ hpa)
      rw [hrc, update_other hal (hi.aligned_free hq) hne]
      exact c1 q hq
    · refine ⟨pa :: l, hi1, fun q hq => ?_⟩
      rcases List.mem_cons.1 hq with e | hq1
      · rw [e, hrc, Function.update_same]
      · have hne : q ≠ pa := fun e => hi.disjoint q hq1 (e ▸ hpa)
        rw [hrc, update_other hal (hi.aligned_free hq1) hne]
        exact c1 q hq1

/-- Allocating the head of the free list and releasing it at once gives back the
free list and the counter table, provided the head had counter zero. -/
theorem alloc_release_head {L : Layout} (h64 : L.PHYSTOP ≤ 2 ^ 64)
    {s : KState} {p : Nat} {rest : List Nat} (hk : s.kmem_lock = false)
    (hr : s.ref_lock = false) (hl : FreeList s (p :: rest)) (hlo : L.kend ≤ p)
    (hhi : p < L.PHYSTOP) (hz : s.reference_counter (p / PGSIZE) = 0) :
    ∃ s1 s2 s3, kalloc s = .ok (p, s1) ∧ kfree L s1 p = .ok s2 ∧
      FreeList s2 (p :: rest) ∧ s2.freelist = s.freelist ∧
      s2.reference_counter = s.reference_counter ∧ kalloc s2 = .ok (p, s3) := by
  have hq : s.freelist = p := hl.1.1
  have hp0 : p ≠ 0 := hl.1.2.1
  have hpa : p % PGSIZE = 0 := (hl.2 p (List.mem_cons_self _ _)).1
  have hnd := List.nodup_cons.1 (linked_nodup _ _ hl.1)
  obtain ⟨s1, e1, f1, m1, c1, k1, r1⟩ := kalloc_some s hk (by rw [hq]; exact hp0)
  rw [hq] at e1 f1 m1 c1
  have hl1 : FreeList s1 rest := FreeList.pop hl f1 m1
  obtain ⟨s2, e2, f2, m2, c2, k2, _⟩ := kfree_last L s1 p (by rw [r1, hr]) k1
    (by rw [c1, Function.update_same]) hpa hlo hhi
  have hl2 : FreeList s2 (p :: rest) :=
    FreeList.push hl1 hnd.1 hpa hp0 (by omega) f2 m2
  obtain ⟨s3, e3, _⟩ := kalloc_some s2 k2 (by rw [f2]; exact hp0)
  rw [f2] at e3
  refine ⟨s1, s2, s3, e1, e2, hl2, by rw [f2, hq], ?_, e3⟩
  rw [c2, c1, Function.update_idem, ← hz, Function.update_eq_self]

theorem demoInit_eq : freerange demoL demoBoot 4096 16384 = .ok demoInit := by
  obtain ⟨s, e⟩ := freerange_total (L := demoL) (a := 4096) (b := 16384) demoBoot_boot
    (by decide) (by decide) (by decide) (by decide)
  have hs : demoInit = s := by
    unfold demoInit
    rw [e]
    rfl
  rw [hs]
  exact e

/-! ## The claims, continued -/

/-- C11 (single-owner reclaim round trip). In every state reached by a run whose
free list is `p :: rest`, `kalloc()` returns `p`, the `kfree(p)` that follows
returns without a fault and restores the free list and the counter table to what
they were before the `kalloc` (`p` is the head again, with counter 0), and the
next `kalloc()` returns `p` again. -/
theorem single_owner_round_trip (L : Layout) (h0 : 0 < L.kend) (h64 : L.PHYSTOP ≤ 2 ^ 64)
    (a b : Nat) (t : List Event) (s : KState) (p : Nat) (rest : List Nat)
    (hrun : Run L owned a b t s) (hl : FreeList s (p :: rest)) :
    ∃ s1 s2 s3, kalloc s = .ok (p, s1) ∧ kfree L s1 p = .ok s2 ∧
      FreeList s2 (p :: rest) ∧ s2.freelist = s.freelist ∧
      s2.reference_counter = s.reference_counter ∧
      s2.reference_counter (p / PGSIZE) = 0 ∧ kalloc s2 = .ok (p, s3) := by
  obtain ⟨l, hi, hz⟩ := run_free_zero h0 h64 (fun _ h => h) hrun
  have hll : l = p :: rest := FreeList.unique hi.free hl
  subst hll
  have hb := hi.bounds p (List.mem_cons_self _ _)
  have hzp := hz p (List.mem_cons_self _ _)
  obtain ⟨s1, s2, s3, e1, e2, hl2, f2, c2, e3⟩ :=
    alloc_release_head h64 hi.kmem_free hi.ref_free hl hb.1 hb.2 hzp
  exact ⟨s1, s2, s3, e1, e2, hl2, f2, c2, by rw [c2]; exact hzp, e3⟩

/-- The round trip on the small machine right after `freerange`, where the free
list is 12288, 8192, 4096. -/
theorem single_owner_round_trip_witness :
    Run demoL owned 4096 16384 [] demoInit ∧ FreeList demoInit [12288, 8192, 4096] ∧
    ∃ s1 s2 s3, kalloc demoInit = .ok (12288, s1) ∧ kfree demoL s1 12288 = .ok s2 ∧
      FreeList s2 [12288, 8192, 4096] ∧ s2.freelist = demoInit.freelist ∧
      s2.reference_counter = demoInit.reference_counter ∧
      s2.reference_counter (12288 / PGSIZE) = 0 ∧ kalloc s2 = .ok (12288, s3) :=
  ⟨(demo_init owned).1, (demo_init owned).2.1.free,
    single_owner_round_trip demoL (by decide) (by decide) 4096 16384 [] demoInit 12288
      [8192, 4096] (demo_init owned).1 (demo_init owned).2.1.free⟩

/-- Draining the free list: as many `kalloc()` calls as the free list has pages
return exactly these pages, head first, and leave the free list empty, each of
the pages with counter one and every other counter as it was. -/
theorem kallocN_drain :
    ∀ (l : List Nat) (s : KState), s.kmem_lock = false → FreeList s l →
      ∃ s1, kallocN l.length s = .ok (l, s1) ∧ FreeList s1 [] ∧
        s1.kmem_lock = false ∧ s1.ref_lock = s.ref_lock ∧
        (∀ q ∈ l, s1.reference_counter (q / PGSIZE) = 1) ∧
        ∀ f, (∀ q ∈ l, q / PGSIZE ≠ f) → s1.reference_counter f = s.reference_counter f
  | [], s, hk, hl =>
    ⟨s, rfl, hl, hk, rfl, fun q hq => absurd hq (List.not_mem_nil q), fun _ _ => rfl⟩
  | p :: rest, s, hk, hl => by
    have hq : s.freelist = p := hl.1.1
    have hpa : p % PGSIZE = 0 := (hl.2 p (List.mem_cons_self _ _)).1
    have hnd := List.nodup_cons.1 (linked_nodup _ _ hl.1)
    obtain ⟨s1, e1, f1, m1, c1, k1, r1⟩ := kalloc_some s hk (by rw [hq]; exact hl.1.2.1)
    rw [hq] at e1 f1 m1 c1
    have hl1 : FreeList s1 rest := FreeList.pop hl f1 m1
    obtain ⟨s2, e2, hl2, k2, r2, c2, o2⟩ := kallocN_drain rest s1 k1 hl1
    refine ⟨s2, ?_, hl2, k2, by rw [r2, r1], ?_, ?_⟩
    · simp only [List.length_cons, kallocN, e1, e2]
    · intro q hq1
      rcases List.mem_cons.1 hq1 with e | hq2
      · have hfr : ∀ r ∈ rest, r / PGSIZE ≠ p / PGSIZE := fun r hr =>
          frame_ne (hl1.2 r hr).1 hpa (fun e => hnd.1 (e ▸ hr))
        rw [e, o2 _ hfr, c1, Function.update_same]
      · exact c2 q hq2
    · intro f hf
      have hfr : ∀ r ∈ rest, r / PGSIZE ≠ f := fun r hr => hf r (List.mem_cons_of_mem _ hr)
      have hfp : f ≠ p / PGSIZE := fun e => hf p (List.mem_cons_self _ _) e.symm
      rw [o2 f hfr, c1, Function.update_noteq hfp]

/-- C12 (exhaustion then recovery). For every `N`, from the state `freerange`
leaves on a range of exactly `N` pages, `N` consecutive `kalloc()` calls return
`N` pairwise distinct non-null pages and the next one returns null; if any one
of these pages is then released with `kfree`, the next `kalloc()` succeeds and
the one after it returns null again. -/
theorem exhaustion_then_recovery (L : Layout) (h0 : 0 < L.kend)
    (h64 : L.PHYSTOP ≤ 2 ^ 64) (a b N : Nat) (s0 s : KState) (hb : Boot s0)
    (hinit : freerange L s0 a b = .ok s) (hN : (rangePages a b).length = N) :
    ∃ pages s1 s2, kallocN N s = .ok (pages, s1) ∧ pages.length = N ∧ pages.Nodup ∧
      (∀ q ∈ pages, q ≠ 0) ∧ kalloc s1 = .ok (0, s2) ∧
      ∀ q ∈ pages, ∃ s3 s4 s5, kfree L s2 q = .ok s3 ∧ kalloc s3 = .ok (q, s4) ∧
        kalloc s4 = .ok (0, s5) := by
  obtain ⟨hl, hc, hk, hr, hbd⟩ := freerange_boot h0 h64 hb hinit
  obtain ⟨s1, e1, hl1, k1, r1, c1, _⟩ := kallocN_drain _ s hk hl
  rw [List.length_reverse, hN] at e1
  obtain ⟨s2, e2, f2, m2, c2, k2, r2⟩ := kalloc_none s1 k1 hl1.1
  have hl2 : FreeList s2 [] := FreeList.same hl1 f2 m2
  refine ⟨(rangePages a b).reverse, s1, s2, e1, by rw [List.length_reverse, hN],
    List.nodup_reverse.2 (rangePages_nodup _ _), ?_, e2, ?_⟩
  · intro q hq
    have := (hbd q (List.mem_reverse.1 hq)).1
    omega
  · intro q hq
    have hqb := hbd q (List.mem_reverse.1 hq)
    have hqa : q % PGSIZE = 0 := rangePages_aligned (List.mem_reverse.1 hq)
    obtain ⟨s3, e3, f3, m3, _, k3, _⟩ := kfree_last L s2 q (by rw [r2, r1, hr]) k2
      (by rw [c2, c1 q hq]) hqa hqb.1 hqb.2
    have hl3 : FreeList s3 [q] :=
      FreeList.push hl2 (List.not_mem_nil q) hqa (by omega) (by omega) f3 m3
    obtain ⟨s4, e4, f4, m4, _, k4, _⟩ := kalloc_some s3 k3 (by rw [f3]; omega)
    rw [f3] at e4 f4 m4
    have hl4 : FreeList s4 [] := FreeList.pop hl3 f4 m4
    obtain ⟨s5, e5, _⟩ := kalloc_none s4 k4 hl4.1
    exact ⟨s3, s4, s5, e3, e4, e5⟩

/-- Exhaustion and recovery on the small machine, whose range has 3 pages. -/
theorem exhaustion_then_recovery_witness :
    Boot demoBoot ∧ freerange demoL demoBoot 4096 16384 = .ok demoInit ∧
    (rangePages 4096 16384).length = 3 ∧
    ∃ pages s1 s2, kallocN 3 demoInit = .ok (pages, s1) ∧ pages.length = 3 ∧
      pages.Nodup ∧ (∀ q ∈ pages, q ≠ 0) ∧ kalloc s1 = .ok (0, s2) ∧
      ∀ q ∈ pages, ∃ s3 s4 s5, kfree demoL s2 q = .ok s3 ∧ kalloc s3 = .ok (q, s4) ∧
        kalloc s4 = .ok (0, s5) :=
  ⟨demoBoot_boot, demoInit_eq, by rw [demo_rangePages]; rfl,
    exhaustion_then_recovery demoL (by decide) (by decide) 4096 16384 3 demoBoot demoInit
      demoBoot_boot demoInit_eq (by rw [demo_rangePages]; rfl)⟩

theorem PGROUNDUP_ge {a : Nat} (h : a + PGSIZE - 1 < 2 ^ 64) : a ≤ PGROUNDUP a := by
  unfold PGROUNDUP
  rw [Nat.mod_eq_of_lt h]
  simp only [PGSIZE]
  omega

theorem mem_rangePages {a b q : Nat} (hw : PGROUNDUP a + PGSIZE < 2 ^ 64) :
    q ∈ rangePages a b ↔ ∃ k, q = PGROUNDUP a + k * PGSIZE ∧ q + PGSIZE ≤ b := by
  rw [rangePages_eq hw, mem_pagesUp]
  constructor
  · rintro ⟨k, hk, e⟩
    refine ⟨k, e, ?_⟩
    rw [e]
    simp only [PGSIZE] at hk ⊢
    omega
  · rintro ⟨k, e, hle⟩
    refine ⟨k, ?_, e⟩
    rw [e] at hle
    simp only [PGSIZE] at hle ⊢
    omega

theorem pagesUp_descending (p n : Nat) :
    (pagesUp p n).reverse.Pairwise (fun x y => x > y) := by
  rw [List.pairwise_reverse]
  unfold pagesUp
  rw [List.pairwise_map]
  refine List.Pairwise.imp ?_ (List.pairwise_lt_range n)
  intro i j hij
  simp only [PGSIZE]
  omega

/-- C13 as stated fails when an address computed by `freerange` wraps around
`2 ^ 64`. With the kernel ending at 4096 and `PHYSTOP` 16384: for
`start = 2^64 - 1` the rounded start is 0, and `freerange` calls `kfree(0)`,
which panics; for `start = 2^64 - 4096`, which is page-aligned, the end of the
first page wraps to 0, the loop test passes, and `freerange` calls
`kfree(2^64 - 4096)`, which panics. With `PHYSTOP = 2^64 - 4096`:
`freerange(2^64 - 8192, 2^64 - 4096)` frees the page `2^64 - 8192`, then the end
of the page at `2^64 - 4096` wraps to 0, the test passes and `kfree(2^64 - 4096)`
panics. In all three cases `end_of_kernel <= start` and `end <= PHYSTOP`. -/
theorem freerange_panics_on_wrapped_start :
    demoL.kend ≤ 18446744073709547520 ∧ 16384 ≤ demoL.PHYSTOP ∧ Boot demoBoot ∧
      PGROUNDUP 18446744073709551615 = 0 ∧
      freerange demoL demoBoot 18446744073709551615 16384 = .error .panic ∧
      PGROUNDUP 18446744073709547520 = 18446744073709547520 ∧
      (18446744073709547520 + PGSIZE) % 2 ^ 64 = 0 ∧
      freerange demoL demoBoot 18446744073709547520 16384 = .error .panic ∧
      demoTop.kend ≤ 18446744073709543424 ∧ 18446744073709547520 ≤ demoTop.PHYSTOP ∧
      18446744073709543424 + 2 * PGSIZE ≤ 2 ^ 64 ∧
      freerange demoTop demoBoot 18446744073709543424 18446744073709547520 =
        .error .panic := by
  have hr : PGROUNDUP 18446744073709551615 = 0 := by decide
  have hr2 : PGROUNDUP 18446744073709547520 = 18446744073709547520 := by decide
  have hr3 : PGROUNDUP 18446744073709543424 = 18446744073709543424 := by decide
  refine ⟨by decide, by decide, demoBoot_boot, hr, ?_, hr2, by decide, ?_, by decide,
    by decide, by decide, ?_⟩
  · unfold freerange
    rw [hr, rounds_eq, freerangeLoop, if_pos (by decide),
      kfree_invalid demoL demoBoot 0 rfl (by decide) (Or.inr (Or.inl (by decide)))]
  · unfold freerange
    rw [hr2, rounds_eq, freerangeLoop, if_pos (by decide),
      kfree_invalid demoL demoBoot 18446744073709547520 rfl (by decide)
        (Or.inr (Or.inr (by decide)))]
  · unfold freerange
    obtain ⟨s2, e, _, _, hc2, _, hr2b⟩ :=
      kfree_last demoTop demoBoot 18446744073709543424 rfl rfl (by decide) (by decide)
        (by decide) (by decide)
    have hstep : (18446744073709543424 + PGSIZE) % 2 ^ 64 = 18446744073709547520 := by
      decide
    have hz : s2.reference_counter (18446744073709547520 / PGSIZE) ≤ 1 := by
      rw [hc2, Function.update_noteq (by decide)]
      decide
    rw [hr3, rounds_eq, freerangeLoop, if_pos (by decide), e]
    simp only
    rw [hstep, freerangeLoop, if_pos (by decide),
      kfree_invalid demoTop s2 18446744073709547520 hr2b hz (Or.inr (Or.inr (by decide)))]

/-- C13 (initialize, amended). For every `start` and `end` with
`end_of_kernel <= start`, `end <= PHYSTOP`, `start + 8192 <= 2 ^ 64` and
`end + 4096 < 2 ^ 64` (so that neither rounding `start` up nor the end of a page
the loop looks at wraps around `2 ^ 64`), `freerange(start, end)` on a boot
state returns and leaves a free list that holds, each once, exactly the
addresses `PGROUNDUP(start) + k * 4096` whose page ends at or below `end`, in
descending order (the highest page is the head), with every counter still 0;
the list is empty when `PGROUNDUP(start) + 4096 > end`. -/
theorem freerange_initializes (L : Layout) (h0 : 0 < L.kend) (h64 : L.PHYSTOP ≤ 2 ^ 64)
    (a b : Nat) (s0 : KState) (hb : Boot s0) (hlo : L.kend ≤ a) (hhi : b ≤ L.PHYSTOP)
    (hna : a + 2 * PGSIZE ≤ 2 ^ 64) (hnb : b + PGSIZE < 2 ^ 64) :
    ∃ s l, freerange L s0 a b = .ok s ∧ FreeList s l ∧ l.Nodup ∧
      (∀ q, q ∈ l ↔ ∃ k, q = PGROUNDUP a + k * PGSIZE ∧ q + PGSIZE ≤ b) ∧
      l.Pairwise (fun x y => x > y) ∧ (∀ f, s.reference_counter f = 0) ∧
      (b < PGROUNDUP a + PGSIZE → l = []) := by
  have hnw : a + PGSIZE - 1 < 2 ^ 64 := by
    simp only [PGSIZE] at hna ⊢
    omega
  have hge : a ≤ PGROUNDUP a := PGROUNDUP_ge hnw
  have hw : PGROUNDUP a + PGSIZE < 2 ^ 64 := by
    have hle : PGROUNDUP a ≤ a + PGSIZE - 1 := by
      unfold PGROUNDUP
      rw [Nat.mod_eq_of_lt hnw]
      exact Nat.div_mul_le_self _ _
    simp only [PGSIZE] at hna hle ⊢
    omega
  obtain ⟨s, e⟩ := freerange_total hb (Nat.le_trans hlo hge) hhi hw hnb
  obtain ⟨hl, hc, _, _, _⟩ := freerange_boot h0 h64 hb e
  refine ⟨s, (rangePages a b).reverse, e, hl, List.nodup_reverse.2 (rangePages_nodup _ _),
    fun q => ?_, ?_, hc, fun hlt => ?_⟩
  · rw [List.mem_reverse]
    exact mem_rangePages hw
  · rw [rangePages_eq hw]
    exact pagesUp_descending _ _
  · have hz : (b - PGROUNDUP a) / PGSIZE = 0 := by
      simp only [PGSIZE] at hlt ⊢
      omega
    rw [rangePages_eq hw, hz]
    rfl

/-- On the small machine `freerange(4096, 16384)` from the zeroed boot state. -/
theorem freerange_initializes_witness :
    Boot demoBoot ∧ demoL.kend ≤ 4096 ∧ 16384 ≤ demoL.PHYSTOP ∧
    4096 + 2 * PGSIZE ≤ 2 ^ 64 ∧ 16384 + PGSIZE < 2 ^ 64 ∧
    ∃ s l, freerange demoL demoBoot 4096 16384 = .ok s ∧ FreeList s l ∧ l.Nodup ∧
      (∀ q, q ∈ l ↔ ∃ k, q = PGROUNDUP 4096 + k * PGSIZE ∧ q + PGSIZE ≤ 16384) ∧
      l.Pairwise (fun x y => x > y) ∧ (∀ f, s.reference_counter f = 0) ∧
      (16384 < PGROUNDUP 4096 + PGSIZE → l = []) :=
  ⟨demoBoot_boot, by decide, by decide, by decide, by decide,
    freerange_initializes demoL (by decide) (by decide) 4096 16384 demoBoot demoBoot_boot
      (by decide) (by decide) (by decide) (by decide)⟩

/-- A `kalloc` that returns a page returns the head of the free list and fills
that page with the byte 5. -/
theorem kalloc_ok_mem {s s1 : KState} {p : Nat} (h : kalloc s = .ok (p, s1))
    (hp : p ≠ 0) : s.freelist = p ∧ s1.mem = memset s.mem p 5 PGSIZE := by
  by_cases hk : s.kmem_lock = false
  · by_cases hf : s.freelist = 0
    · obtain ⟨s2, e2, _⟩ := kalloc_none s hk hf
      rw [e2] at h
      injection h with h
      injection h with hp0 _
      exact absurd hp0.symm hp
    · obtain ⟨s2, e2, _, hm, _⟩ := kalloc_some s hk hf
      rw [e2] at h
      injection h with h
      injection h with hp0 hs
      subst hs
      exact ⟨hp0, by rw [hm, hp0]⟩
  · have hk3 : s.kmem_lock = true := by
      cases h1 : s.kmem_lock
      · exact absurd h1 hk
      · rfl
    simp [kalloc, acquireKmem, hk3] at h

theorem writePage_inside (s : KState) (p : Nat) (c : Nat → Nat) {i : Nat}
    (hi : i < PGSIZE) : (writePage s p c).mem (p + i) = c i % 256 := by
  unfold writePage
  simp only
  rw [if_pos ⟨Nat.le_add_right _ _, Nat.add_lt_add_left hi _⟩, Nat.add_sub_cancel_left]

theorem writePage_outside (s : KState) (p : Nat) (c : Nat → Nat) {x : Nat}
    (hx : x < p ∨ p + PGSIZE ≤ x) : (writePage s p c).mem x = s.mem x := by
  unfold writePage
  simp only
  rw [if_neg]
  omega

/-- The life of a page between two allocations: `kalloc` returns `p`, its owner
stores the content `c`, `kfree(p)` reclaims it, and the next `kalloc` returns
`p` again, filled with the byte 5. -/
theorem realloc_after_write {L : Layout} (h64 : L.PHYSTOP ≤ 2 ^ 64) {s : KState}
    {p : Nat} {rest : List Nat} (c : Nat → Nat) (hk : s.kmem_lock = false)
    (hr : s.ref_lock = false) (hl : FreeList s (p :: rest)) (hlo : L.kend ≤ p)
    (hhi : p < L.PHYSTOP) :
    ∃ s1 s2 s3, kalloc s = .ok (p, s1) ∧ kfree L (writePage s1 p c) p = .ok s2 ∧
      kalloc s2 = .ok (p, s3) ∧ s1.reference_counter (p / PGSIZE) = 1 ∧
      ∀ i, i < PGSIZE → s3.mem (p + i) = 5 := by
  have hq : s.freelist = p := hl.1.1
  have hp0 : p ≠ 0 := hl.1.2.1
  have hpa : p % PGSIZE = 0 := (hl.2 p (List.mem_cons_self _ _)).1
  have hnd := List.nodup_cons.1 (linked_nodup _ _ hl.1)
  obtain ⟨s1, e1, f1, m1, c1, k1, r1⟩ := kalloc_some s hk (by rw [hq]; exact hp0)
  rw [hq] at e1 f1 m1 c1
  have hl1 : FreeList s1 rest := FreeList.pop hl f1 m1
  have hlw : FreeList (writePage s1 p c) rest := by
    refine ⟨linked_congr rest _ hl1.1 ?_, hl1.2⟩
    intro q hq1 i hi
    have hne : p ≠ q := fun e => hnd.1 (e ▸ hq1)
    have hap := page_apart hpa (hl1.2 q hq1).1 hne
    apply writePage_outside
    simp only [PGSIZE] at hap ⊢
    omega
  have hc1 : s1.reference_counter (p / PGSIZE) = 1 := by
    rw [c1, Function.update_same]
  obtain ⟨s2, e2, f2, m2, _, k2, _⟩ := kfree_last L (writePage s1 p c) p
    (by show s1.ref_lock = false; rw [r1, hr]) k1
    (by show s1.reference_counter (p / PGSIZE) ≤ 1; rw [hc1]) hpa hlo hhi
  have hl2 : FreeList s2 (p :: rest) :=
    FreeList.push hlw hnd.1 hpa hp0 (by omega) f2 m2
  obtain ⟨s3, e3, _, m3, _⟩ := kalloc_some s2 k2 (by rw [f2]; exact hp0)
  rw [f2] at e3 m3
  refine ⟨s1, s2, s3, e1, e2, e3, hc1, fun i hi => ?_⟩
  rw [m3, memset_inside (Nat.le_add_right _ _) (Nat.add_lt_add_left hi _)]

/-- C14 (allocation fill pattern). In every state whose free list is
`p :: rest`, entered without `kmem.lock` held, `kalloc` returns `p`, every one
of the 4096 bytes `p .. p + 4095` then holds the byte 5, the first eight
included, which held the link to the rest of the list, and no byte outside that
page is modified. -/
theorem kalloc_fill_pattern (s : KState) (p : Nat) (rest : List Nat)
    (hk : s.kmem_lock = false) (hl : FreeList s (p :: rest)) :
    ∃ s1, kalloc s = .ok (p, s1) ∧ linked s.mem (read64 s.mem p) rest ∧
      (∀ x, p ≤ x → x < p + PGSIZE → s1.mem x = 5) ∧
      ∀ x, x < p ∨ p + PGSIZE ≤ x → s1.mem x = s.mem x := by
  have hq : s.freelist = p := hl.1.1
  obtain ⟨s1, e, _, hm, _⟩ := kalloc_some s hk (by rw [hq]; exact hl.1.2.1)
  rw [hq] at e hm
  refine ⟨s1, e, hl.1.2.2, fun x h1 h2 => ?_, fun x hx => ?_⟩
  · rw [hm, memset_inside h1 h2]
  · rw [hm, memset_outside hx]

/-- The fill pattern on `demoState`, where `kalloc` returns 8192. -/
theorem kalloc_fill_pattern_witness :
    demoState.kmem_lock = false ∧ FreeList demoState [8192, 4096] ∧
    ∃ s1, kalloc demoState = .ok (8192, s1) ∧
      linked demoState.mem (read64 demoState.mem 8192) [4096] ∧
      (∀ x, 8192 ≤ x → x < 8192 + PGSIZE → s1.mem x = 5) ∧
      ∀ x, x < 8192 ∨ 8192 + PGSIZE ≤ x → s1.mem x = demoState.mem x :=
  ⟨rfl, demoState_free, kalloc_fill_pattern demoState 8192 [4096] rfl demoState_free⟩

/-- C15 as stated fails for the content that is itself 4096 bytes of value 5:
on `demoState`, after `kalloc` returned 8192, this content was written,
`kfree(8192)` reclaimed the page and `kalloc` returned 8192 again, every byte of
the page is identical to the content written before the release. -/
theorem scrub_leaves_pattern_content :
    ∃ s1 s2 s3, kalloc demoState = .ok (8192, s1) ∧
      kfree demoL (writePage s1 8192 (fun _ => 5)) 8192 = .ok s2 ∧
      kalloc s2 = .ok (8192, s3) ∧
      ∀ i, i < PGSIZE → s3.mem (8192 + i) = (writePage s1 8192 (fun _ => 5)).mem (8192 + i) := by
  obtain ⟨s1, s2, s3, e1, e2, e3, _, h5⟩ :=
    realloc_after_write (L := demoL) (by decide) (fun _ => 5) rfl rfl demoState_free
      (by decide) (by decide)
  refine ⟨s1, s2, s3, e1, e2, e3, fun i hi => ?_⟩
  rw [h5 i hi, writePage_inside _ _ _ hi]

/-- C15 (scrub on release, amended). For every page `p` returned by `kalloc` and
every 4096-byte content `c`, other than 4096 bytes of value 5, written into `p`
before `kfree(p)` reclaims it (counter 1): the `kalloc` that follows returns `p`
again with all its bytes equal to 5, so that some byte differs from the content
written; and the same holds after any `kalloc` that returns `p`. -/
theorem scrub_on_release (L : Layout) (h64 : L.PHYSTOP ≤ 2 ^ 64) (s : KState)
    (p : Nat) (rest : List Nat) (c : Nat → Nat) (hk : s.kmem_lock = false)
    (hr : s.ref_lock = false) (hl : FreeList s (p :: rest)) (hlo : L.kend ≤ p)
    (hhi : p < L.PHYSTOP) (hc : ∃ i, i < PGSIZE ∧ c i % 256 ≠ 5) :
    ∃ s1 s2 s3, kalloc s = .ok (p, s1) ∧ s1.reference_counter (p / PGSIZE) = 1 ∧
      kfree L (writePage s1 p c) p = .ok s2 ∧ kalloc s2 = .ok (p, s3) ∧
      (∀ i, i < PGSIZE → (writePage s1 p c).mem (p + i) = c i % 256) ∧
      (∀ i, i < PGSIZE → s3.mem (p + i) = 5) ∧
      (∃ i, i < PGSIZE ∧ s3.mem (p + i) ≠ (writePage s1 p c).mem (p + i)) ∧
      ∀ (s4 s5 : KState), kalloc s4 = .ok (p, s5) →
        ∃ i, i < PGSIZE ∧ s5.mem (p + i) ≠ (writePage s1 p c).mem (p + i) := by
  obtain ⟨s1, s2, s3, e1, e2, e3, hc1, h5⟩ := realloc_after_write h64 c hk hr hl hlo hhi
  obtain ⟨i, hi, hci⟩ := hc
  refine ⟨s1, s2, s3, e1, hc1, e2, e3, fun j hj => writePage_inside _ _ _ hj, h5,
    ⟨i, hi, ?_⟩, fun s4 s5 h45 => ⟨i, hi, ?_⟩⟩
  · rw [h5 i hi, writePage_inside _ _ _ hi]
    exact fun e => hci e.symm
  · obtain ⟨_, hm⟩ := kalloc_ok_mem h45 hl.1.2.1
    rw [hm, memset_inside (Nat.le_add_right _ _) (Nat.add_lt_add_left hi _),
      writePage_inside _ _ _ hi]
    exact fun e => hci e.symm

/-- Scrubbing on `demoState` for the content of 4096 zero bytes. -/
theorem scrub_on_release_witness :
    FreeList demoState [8192, 4096] ∧ (∃ i, i < PGSIZE ∧ (fun _ : Nat => 0) i % 256 ≠ 5) ∧
    ∃ s1 s2 s3, kalloc demoState = .ok (8192, s1) ∧
      s1.reference_counter (8192 / PGSIZE) = 1 ∧
      kfree demoL (writePage s1 8192 (fun _ => 0)) 8192 = .ok s2 ∧
      kalloc s2 = .ok (8192, s3) ∧
      (∀ i, i < PGSIZE → (writePage s1 8192 (fun _ => 0)).mem (8192 + i) =
        (fun _ : Nat => 0) i % 256) ∧
      (∀ i, i < PGSIZE → s3.mem (8192 + i) = 5) ∧
      (∃ i, i < PGSIZE ∧ s3.mem (8192 + i) ≠ (writePage s1 8192 (fun _ => 0)).mem (8192 + i)) ∧
      ∀ (s4 s5 : KState), kalloc s4 = .ok (8192, s5) →
        ∃ i, i < PGSIZE ∧ s5.mem (8192 + i) ≠ (writePage s1 8192 (fun _ => 0)).mem (8192 + i) :=
  ⟨demoState_free, ⟨0, by decide, by decide⟩,
    scrub_on_release demoL (by decide) demoState 8192 [4096] (fun _ => 0) rfl rfl
      demoState_free (by decide) (by decide) ⟨0, by decide, by decide⟩⟩

/-- The state in which a successful `kalloc`, entered without `ref_count.lock`,
calls `ref_acquire`: the page is popped and filled, the counter not yet set. -/
theorem kalloc_unheld {s : KState} (hk : s.kmem_lock = false) (hf : s.freelist ≠ 0)
    (hr : s.ref_lock = false) :
    ∃ s4 s5, ref_acquire s4 = .ok s5 ∧ s4.reference_counter = s.reference_counter ∧
      s4.lockLog = s.lockLog ++ [.acquireKmem, .releaseKmem] ∧
      s5.lockLog = s.lockLog ++ [.acquireKmem, .releaseKmem, .acquireRef] ∧
      kalloc s = .ok (s.freelist, ref_release (ref_counter_set s5 s.freelist 1)) ∧
      (ref_release (ref_counter_set s5 s.freelist 1)).lockLog =
        s.lockLog ++ [.acquireKmem, .releaseKmem, .acquireRef, .releaseRef] := by
  refine ⟨{ mem := memset s.mem s.freelist 5 PGSIZE
            freelist := read64 s.mem s.freelist
            reference_counter := s.reference_counter
            kmem_lock := false
            ref_lock := false
            lockLog := s.lockLog ++ [.acquireKmem, .releaseKmem] },
          { mem := memset s.mem s.freelist 5 PGSIZE
            freelist := read64 s.mem s.freelist
            reference_counter := s.reference_counter
            kmem_lock := false
            ref_lock := true
            lockLog := s.lockLog ++ [.acquireKmem, .releaseKmem, .acquireRef] },
          ?_, rfl, rfl, rfl, ?_, ?_⟩
  · simp [ref_acquire]
  · simp [kalloc, acquireKmem, releaseKmem, holdingRef, ref_acquire, ref_release,
      ref_counter_set, hk, hf, hr]
  · simp [ref_release, ref_counter_set]

/-- A successful `kalloc` entered with `ref_count.lock` held. -/
theorem kalloc_held {s : KState} (hk : s.kmem_lock = false) (hf : s.freelist ≠ 0)
    (hr : s.ref_lock = true) :
    ∃ s1, kalloc s = .ok (s.freelist, s1) ∧
      s1.lockLog = s.lockLog ++ [.acquireKmem, .releaseKmem] ∧ s1.ref_lock = true ∧
      s1.freelist = read64 s.mem s.freelist ∧ s1.mem = memset s.mem s.freelist 5 PGSIZE ∧
      s1.reference_counter =
        Function.update s.reference_counter (s.freelist / PGSIZE) 1 := by
  simp [kalloc, acquireKmem, releaseKmem, holdingRef, ref_counter_set, hk, hf, hr]

/-- A `kalloc` on an empty free list does no operation on `ref_count.lock`. -/
theorem kalloc_none_log {s : KState} (hk : s.kmem_lock = false) (hf : s.freelist = 0) :
    ∃ s1, kalloc s = .ok (0, s1) ∧
      s1.lockLog = s.lockLog ++ [.acquireKmem, .releaseKmem] ∧
      s1.ref_lock = s.ref_lock ∧ s1.kmem_lock = false := by
  simp [kalloc, acquireKmem, releaseKmem, hk, hf]

/-- C17 as stated fails on an empty free list: entered with `ref_count.lock` not
held, `kalloc` on `demoEmpty` returns null after acquiring and releasing only
`kmem.lock`; it does not acquire `ref_count.lock` at all. -/
theorem kalloc_empty_skips_ref_lock :
    demoEmpty.ref_lock = false ∧ demoEmpty.kmem_lock = false ∧
      ∃ s1, kalloc demoEmpty = .ok (0, s1) ∧
        s1.lockLog = [LockEvent.acquireKmem, LockEvent.releaseKmem] ∧
        LockEvent.acquireRef ∉ s1.lockLog := by
  obtain ⟨s1, e, hlog, _⟩ := kalloc_none_log (s := demoEmpty) rfl rfl
  have h2 : s1.lockLog = [LockEvent.acquireKmem, LockEvent.releaseKmem] := hlog
  refine ⟨rfl, rfl, s1, e, h2, ?_⟩
  rw [h2]
  decide

/-- C17 (re-entrancy at allocation, amended). Take two entries of `kalloc` on
the same non-empty free list `p :: rest`, counter table and memory, `sH` with
`ref_count.lock` held by the caller and `sN` with it not held. From `sH`,
`kalloc` does no operation on `ref_count.lock` and the lock is still held on
return. From `sN`, it acquires and releases the lock exactly once, with the
counter update between the two, and the lock is not held on return. The page
returned, the free list, the counter table and memory are the same in the two
cases. On an empty free list `kalloc` does no operation on `ref_count.lock` in
either case. -/
theorem kalloc_reentrancy (sH sN : KState) (p : Nat) (rest : List Nat)
    (hkH : sH.kmem_lock = false) (hkN : sN.kmem_lock = false)
    (hH : sH.ref_lock = true) (hN : sN.ref_lock = false)
    (hmem : sH.mem = sN.mem) (hfl : sH.freelist = sN.freelist)
    (hrc : sH.reference_counter = sN.reference_counter)
    (hl : FreeList sN (p :: rest)) :
    (∃ s1 s2 s4 s5, kalloc sH = .ok (p, s1) ∧
      s1.lockLog = sH.lockLog ++ [.acquireKmem, .releaseKmem] ∧ s1.ref_lock = true ∧
      kalloc sN = .ok (p, s2) ∧
      s2.lockLog = sN.lockLog ++ [.acquireKmem, .releaseKmem, .acquireRef, .releaseRef] ∧
      s2.ref_lock = false ∧
      ref_acquire s4 = .ok s5 ∧ s4.reference_counter = sN.reference_counter ∧
      s4.lockLog = sN.lockLog ++ [.acquireKmem, .releaseKmem] ∧
      s2 = ref_release (ref_counter_set s5 p 1) ∧
      s1.freelist = s2.freelist ∧ s1.reference_counter = s2.reference_counter ∧
      s1.mem = s2.mem ∧ FreeList s1 rest ∧ FreeList s2 rest) ∧
    ∀ s : KState, s.kmem_lock = false → FreeList s [] →
      ∃ s1, kalloc s = .ok (0, s1) ∧
        s1.lockLog = s.lockLog ++ [.acquireKmem, .releaseKmem] ∧
        s1.ref_lock = s.ref_lock := by
  constructor
  · have hq : sN.freelist = p := hl.1.1
    have hp0 : p ≠ 0 := hl.1.2.1
    obtain ⟨s1, e1, g1, r1, f1, m1, c1⟩ :=
      kalloc_held hkH (by rw [hfl, hq]; exact hp0) hH
    obtain ⟨s4, s5, a45, c4, g4, _, e2, g2⟩ := kalloc_unheld hkN (by rw [hq]; exact hp0) hN
    obtain ⟨s2, e2b, f2, m2, c2, _, r2⟩ := kalloc_some sN hkN (by rw [hq]; exact hp0)
    have hs2 : ref_release (ref_counter_set s5 sN.freelist 1) = s2 := by
      rw [e2] at e2b
      injection e2b with h
      injection h
    rw [hs2] at e2 g2
    rw [hfl, hq] at e1 f1 m1 c1
    rw [hmem] at f1 m1
    rw [hrc] at c1
    rw [hq] at e2 f2 m2 c2 hs2
    refine ⟨s1, s2, s4, s5, e1, g1, r1, e2, g2, by rw [r2, hN], a45, c4, g4, hs2.symm,
      by rw [f1, f2], by rw [c1, c2], by rw [m1, m2], ?_, FreeList.pop hl f2 m2⟩
    exact FreeList.pop hl f1 m1
  · intro s hk hl0
    obtain ⟨s1, e, g, r, _⟩ := kalloc_none_log hk hl0.1
    exact ⟨s1, e, g, r⟩

/-- The two entries on the free list 8192, 4096 of `demoState`. -/
theorem kalloc_reentrancy_witness :
    demoHeld.ref_lock = true ∧ demoState.ref_lock = false ∧
    FreeList demoState [8192, 4096] ∧
    ∃ s1 s2 s4 s5, kalloc demoHeld = .ok (8192, s1) ∧
      s1.lockLog = demoHeld.lockLog ++ [.acquireKmem, .releaseKmem] ∧ s1.ref_lock = true ∧
      kalloc demoState = .ok (8192, s2) ∧
      s2.lockLog =
        demoState.lockLog ++ [.acquireKmem, .releaseKmem, .acquireRef, .releaseRef] ∧
      s2.ref_lock = false ∧
      ref_acquire s4 = .ok s5 ∧ s4.reference_counter = demoState.reference_counter ∧
      s4.lockLog = demoState.lockLog ++ [.acquireKmem, .releaseKmem] ∧
      s2 = ref_release (ref_counter_set s5 8192 1) ∧
      s1.freelist = s2.freelist ∧ s1.reference_counter = s2.reference_counter ∧
      s1.mem = s2.mem ∧ FreeList s1 [4096] ∧ FreeList s2 [4096] :=
  ⟨rfl, rfl, demoState_free,
    (kalloc_reentrancy demoHeld demoState 8192 [4096] rfl rfl rfl rfl rfl rfl rfl
      demoState_free).1⟩

theorem kfree_split (L : Layout) (s : KState) (pa : Nat) :
    kfree L s pa =
      match kfreeUpToCheck s pa with
      | .error e => .error e
      | .ok (r, s2) => if r = 0 then .ok s2 else kfreeFromCheck L s2 pa := by
  unfold kfree kfreeUpToCheck kfreeFromCheck
  cases ref_acquire s <;> rfl

/-- C18 (exact fatal condition of release). For every state entered without
`ref_count.lock` held and every address `pa`, `kfree(pa)` panics if and only if
the counter of frame `pa / PGSIZE` is at most one on entry and `pa` is
misaligned, below the end of the kernel or at or above `PHYSTOP`. `kfree` is its
statements up to the address check followed by the rest, and when it panics it
does so in the state `s2` the first part left: there the free list is unchanged
and the counter of the frame is already 0. -/
theorem kfree_panics_iff (L : Layout) (s : KState) (pa : Nat)
    (hr : s.ref_lock = false) :
    (kfree L s pa = .error .panic ↔
      (s.reference_counter (pa / PGSIZE) ≤ 1 ∧
        (pa % PGSIZE ≠ 0 ∨ pa < L.kend ∨ L.PHYSTOP ≤ pa))) ∧
    (kfree L s pa =
      match kfreeUpToCheck s pa with
      | .error e => .error e
      | .ok (r, s2) => if r = 0 then .ok s2 else kfreeFromCheck L s2 pa) ∧
    (kfree L s pa = .error .panic →
      ∃ s2, kfreeUpToCheck s pa = .ok (-1, s2) ∧
        kfreeFromCheck L s2 pa = .error .panic ∧ s2.freelist = s.freelist ∧
        s2.mem = s.mem ∧ s2.reference_counter (pa / PGSIZE) = 0) := by
  have hiff : kfree L s pa = .error .panic ↔
      (s.reference_counter (pa / PGSIZE) ≤ 1 ∧
        (pa % PGSIZE ≠ 0 ∨ pa < L.kend ∨ L.PHYSTOP ≤ pa)) := by
    constructor
    · intro h
      by_cases hc : 1 < s.reference_counter (pa / PGSIZE)
      · obtain ⟨s1, e, _⟩ := kfree_shared L s pa hr hc
        rw [e] at h
        cases h
      · refine ⟨by omega, ?_⟩
        by_contra hbad
        have h1 : pa % PGSIZE = 0 := by
          by_contra h0
          exact hbad (Or.inl h0)
        have h2 : ¬ pa < L.kend := fun h0 => hbad (Or.inr (Or.inl h0))
        have h3 : ¬ L.PHYSTOP ≤ pa := fun h0 => hbad (Or.inr (Or.inr h0))
        cases hk : s.kmem_lock <;>
          simp [kfree, ref_acquire, ref_release, ref_counter_decr, acquireKmem,
            releaseKmem, hr, hk, hc, h1, h2, h3] at h
    · rintro ⟨hc, hbad⟩
      exact kfree_invalid L s pa hr hc hbad
  refine ⟨hiff, kfree_split L s pa, fun h => ?_⟩
  obtain ⟨hc, hbad⟩ := hiff.1 h
  have hc1 : ¬ 1 < s.reference_counter (pa / PGSIZE) := by omega
  refine ⟨ref_release (ref_counter_decr
    { s with ref_lock := true, lockLog := s.lockLog ++ [.acquireRef] } pa).2, ?_, ?_, ?_, ?_, ?_⟩
  · simp [kfreeUpToCheck, ref_acquire, ref_counter_decr, hr, hc1]
  · rcases hbad with h1 | h1 | h1 <;> simp [kfreeFromCheck, h1]
  · simp [ref_release, ref_counter_decr, hc1]
  · simp [ref_release, ref_counter_decr, hc1]
  · simp [ref_release, ref_counter_decr, hc1]

/-- The fatal condition on the misaligned address 4097 in `demoState`, whose
frame has counter 0. -/
theorem kfree_panics_iff_witness :
    demoState.ref_lock = false ∧
    (kfree demoL demoState 4097 = .error .panic ↔
      (demoState.reference_counter (4097 / PGSIZE) ≤ 1 ∧
        (4097 % PGSIZE ≠ 0 ∨ 4097 < demoL.kend ∨ demoL.PHYSTOP ≤ 4097))) ∧
    kfree demoL demoState 4097 = .error .panic :=
  ⟨rfl, (kfree_panics_iff demoL demoState 4097 rfl).1,
    (kfree_panics_iff demoL demoState 4097 rfl).1.2 ⟨by decide, Or.inl (by decide)⟩⟩

/-- Every non-null page that a `kalloc` of a run returned lies between the end
of the kernel and `PHYSTOP`. -/
theorem alloc_bounds {L : Layout} (h0 : 0 < L.kend) (h64 : L.PHYSTOP ≤ 2 ^ 64)
    {ok : Nat → Prop} {a b : Nat} {t : List Event} {s : KState} {p : Nat}
    (hrun : Run L ok a b t s) (hin : Event.alloc p ∈ t) (hp : p ≠ 0) :
    p % PGSIZE = 0 ∧ L.kend ≤ p ∧ p < L.PHYSTOP := by
  obtain ⟨u, v, e⟩ := List.append_of_mem hin
  rw [e] at hrun
  obtain ⟨s1, r1⟩ := run_suffix u s hrun
  cases r1 with
  | kalloc h1 hka =>
    obtain ⟨l, hi, _⟩ := run_inv h0 h64 h1
    rcases inv_kalloc hi hka with ⟨e0, _⟩ | ⟨_, rest, hl, _⟩
    · exact absurd e0 hp
    · have hm : p ∈ l := by rw [hl]; exact List.mem_cons_self _ _
      exact ⟨hi.aligned_free hm, hi.bounds p hm⟩

theorem frame_lt_table {L : Layout} (hmul : L.PHYSTOP % PGSIZE = 0) {pa : Nat}
    (h : pa < L.PHYSTOP) : pa / PGSIZE < L.PHYSTOP / PGSIZE := by
  simp only [PGSIZE] at hmul ⊢
  omega

/-- C19 (counter-table indexing stays in bounds). With `PHYSTOP` a multiple of
`PGSIZE`, every address that passes the validation of `kfree`, hence every
address `freerange` puts on the free list and every address a `kalloc` of a run
returns, has its frame index `pa / PGSIZE` strictly below the table size
`PHYSTOP / PGSIZE`; and `ref_counter_get`, `ref_counter_incr`,
`ref_counter_decr` and `ref_counter_set` touch the table at that index only. -/
theorem counter_index_in_bounds (L : Layout) (h0 : 0 < L.kend)
    (h64 : L.PHYSTOP ≤ 2 ^ 64) (hmul : L.PHYSTOP % PGSIZE = 0) :
    (∀ pa, pa % PGSIZE = 0 → L.kend ≤ pa → pa < L.PHYSTOP →
      pa / PGSIZE < L.PHYSTOP / PGSIZE) ∧
    (∀ (a b : Nat) (s0 s : KState) (l : List Nat), Boot s0 →
      freerange L s0 a b = .ok s → FreeList s l →
      ∀ q ∈ l, q / PGSIZE < L.PHYSTOP / PGSIZE) ∧
    (∀ (a b : Nat) (t : List Event) (s : KState) (p : Nat), Run L owned a b t s →
      Event.alloc p ∈ t → p ≠ 0 → p / PGSIZE < L.PHYSTOP / PGSIZE) ∧
    ∀ (s : KState) (pa n : Nat),
      ref_counter_get s pa = s.reference_counter (pa / PGSIZE) ∧
      ∀ f, f ≠ pa / PGSIZE →
        (ref_counter_incr s pa).reference_counter f = s.reference_counter f ∧
        (ref_counter_decr s pa).2.reference_counter f = s.reference_counter f ∧
        (ref_counter_set s pa n).reference_counter f = s.reference_counter f := by
  refine ⟨fun pa _ _ h => frame_lt_table hmul h, ?_, ?_, ?_⟩
  · intro a b s0 s l hb hinit hl q hq
    obtain ⟨hl0, _, _, _, hbd⟩ := freerange_boot h0 h64 hb hinit
    rw [FreeList.unique hl hl0] at hq
    exact frame_lt_table hmul (hbd q (List.mem_reverse.1 hq)).2
  · intro a b t s p hrun hin hp
    exact frame_lt_table hmul (alloc_bounds h0 h64 hrun hin hp).2.2
  · intro s pa n
    refine ⟨rfl, fun f hf => ⟨?_, ?_, ?_⟩⟩
    · simp [ref_counter_incr, Function.update_noteq hf]
    · by_cases h : 1 < s.reference_counter (pa / PGSIZE) <;>
        simp [ref_counter_decr, h, Function.update_noteq hf]
    · simp [ref_counter_set, Function.update_noteq hf]

/-- The bound on the small machine, whose table has 4 entries: the page 12288
that the first `kalloc` returns has frame index 3. -/
theorem counter_index_in_bounds_witness :
    0 < demoL.kend ∧ demoL.PHYSTOP ≤ 2 ^ 64 ∧ demoL.PHYSTOP % PGSIZE = 0 ∧
    demoL.PHYSTOP / PGSIZE = 4 ∧ 12288 / PGSIZE < demoL.PHYSTOP / PGSIZE :=
  ⟨by decide, by decide, by decide, by decide,
    (counter_index_in_bounds demoL (by decide) (by decide) (by decide)).2.2.1
      4096 16384 [Event.alloc 12288] demoA1 12288 (demo_a1 owned).1 (by decide) (by decide)⟩

theorem kfreeUpToCheck_log {s : KState} (pa : Nat) (hk : s.kmem_lock = false)
    (hr : s.ref_lock = false) :
    ∃ r s2, kfreeUpToCheck s pa = .ok (r, s2) ∧
      s2.lockLog = s.lockLog ++ [.acquireRef, .releaseRef] ∧
      s2.kmem_lock = false ∧ s2.ref_lock = false := by
  by_cases hc : 1 < s.reference_counter (pa / PGSIZE) <;>
    simp [kfreeUpToCheck, ref_acquire, ref_release, ref_counter_decr, hr, hk, hc] <;>
    exact ⟨_, _, ⟨rfl, rfl⟩, rfl, rfl, rfl⟩

theorem kfree_log {L : Layout} {s : KState} (pa : Nat) (hk : s.kmem_lock = false)
    (hr : s.ref_lock = false) :
    kfree L s pa = .error .panic ∨
    ∃ s1 es, kfree L s pa = .ok s1 ∧ s1.lockLog = s.lockLog ++ es ∧
      (es = [.acquireRef, .releaseRef] ∨
        es = [.acquireRef, .releaseRef, .acquireKmem, .releaseKmem]) ∧
      s1.kmem_lock = false ∧ s1.ref_lock = false := by
  by_cases hc : 1 < s.reference_counter (pa / PGSIZE)
  · right
    simp [kfree, ref_acquire, ref_release, ref_counter_decr, hr, hk, hc]
  · by_cases hbad : pa % PGSIZE ≠ 0 ∨ pa < L.kend ∨ L.PHYSTOP ≤ pa
    · left
      exact kfree_invalid L s pa hr (by omega) hbad
    · right
      have h1 : pa % PGSIZE = 0 := by
        by_contra h0
        exact hbad (Or.inl h0)
      have h2 : ¬ pa < L.kend := fun h0 => hbad (Or.inr (Or.inl h0))
      have h3 : ¬ L.PHYSTOP ≤ pa := fun h0 => hbad (Or.inr (Or.inr h0))
      simp [kfree, ref_acquire, ref_release, ref_counter_decr, acquireKmem, releaseKmem,
        hr, hk, hc, h1, h2, h3]

theorem neverBoth_ref : neverBoth [.acquireRef, .releaseRef] := by
  unfold neverBoth
  decide

theorem neverBoth_kmem : neverBoth [.acquireKmem, .releaseKmem] := by
  unfold neverBoth
  decide

theorem neverBoth_ref_kmem :
    neverBoth [.acquireRef, .releaseRef, .acquireKmem, .releaseKmem] := by
  unfold neverBoth
  decide

theorem neverBoth_kmem_ref :
    neverBoth [.acquireKmem, .releaseKmem, .acquireRef, .releaseRef] := by
  unfold neverBoth
  decide

theorem balanced_ref : balanced [.acquireRef, .releaseRef] := by
  unfold balanced
  decide

theorem balanced_kmem : balanced [.acquireKmem, .releaseKmem] := by
  unfold balanced
  decide

theorem balanced_ref_kmem :
    balanced [.acquireRef, .releaseRef, .acquireKmem, .releaseKmem] := by
  unfold balanced
  decide

theorem balanced_kmem_ref :
    balanced [.acquireKmem, .releaseKmem, .acquireRef, .releaseRef] := by
  unfold balanced
  decide

/-- C20 (flat lock discipline). When `kalloc` or `kfree` is entered with neither
`kmem.lock` nor `ref_count.lock` held: `kalloc` returns, the lock operations it
did never leave both locks held, every acquire among them is matched by a
release, and neither lock is held on return; `kfree` reaches its address check
after lock operations of which the same is true, and then either panics there or
returns, in which case the same is true of all its lock operations. -/
theorem flat_lock_discipline (L : Layout) (s : KState) (pa : Nat)
    (hk : s.kmem_lock = false) (hr : s.ref_lock = false) :
    (∃ p s1 es, kalloc s = .ok (p, s1) ∧ s1.lockLog = s.lockLog ++ es ∧
      neverBoth es ∧ balanced es ∧ s1.kmem_lock = false ∧ s1.ref_lock = false) ∧
    (∃ r s2 es, kfreeUpToCheck s pa = .ok (r, s2) ∧ s2.lockLog = s.lockLog ++ es ∧
      neverBoth es ∧ balanced es ∧ s2.kmem_lock = false ∧ s2.ref_lock = false) ∧
    (kfree L s pa = .error .panic ∨
      ∃ s1 es, kfree L s pa = .ok s1 ∧ s1.lockLog = s.lockLog ++ es ∧
        neverBoth es ∧ balanced es ∧ s1.kmem_lock = false ∧ s1.ref_lock = false) := by
  refine ⟨?_, ?_, ?_⟩
  · by_cases hf : s.freelist = 0
    · obtain ⟨s1, e, g, r, k⟩ := kalloc_none_log hk hf
      exact ⟨0, s1, _, e, g, neverBoth_kmem, balanced_kmem, k, by rw [r, hr]⟩
    · obtain ⟨s4, s5, _, _, _, _, e, g⟩ := kalloc_unheld hk hf hr
      obtain ⟨s1, e1, _, _, _, k1, r1⟩ := kalloc_some s hk hf
      have hs : ref_release (ref_counter_set s5 s.freelist 1) = s1 := by
        rw [e] at e1
        injection e1 with h
        injection h
      rw [hs] at g
      exact ⟨s.freelist, s1, _, e1, g, neverBoth_kmem_ref, balanced_kmem_ref, k1,
        by rw [r1, hr]⟩
  · obtain ⟨r, s2, e, g, k2, r2⟩ := kfreeUpToCheck_log pa hk hr
    exact ⟨r, s2, _, e, g, neverBoth_ref, balanced_ref, k2, r2⟩
  · rcases kfree_log (L := L) pa hk hr with h | ⟨s1, es, e, g, hes, k1, r1⟩
    · exact Or.inl h
    · refine Or.inr ⟨s1, es, e, g, ?_, ?_, k1, r1⟩
      · rcases hes with h | h <;> rw [h]
        · exact neverBoth_ref
        · exact neverBoth_ref_kmem
      · rcases hes with h | h <;> rw [h]
        · exact balanced_ref
        · exact balanced_ref_kmem

/-- The lock discipline on `demoState`: `kalloc` there takes and drops each lock
in turn, and `kfree(12288)` on the shared page returns. -/
theorem flat_lock_discipline_witness :
    demoState.kmem_lock = false ∧ demoState.ref_lock = false ∧
    (∃ p s1 es, kalloc demoState = .ok (p, s1) ∧ s1.lockLog = demoState.lockLog ++ es ∧
      neverBoth es ∧ balanced es ∧ s1.kmem_lock = false ∧ s1.ref_lock = false) ∧
    (kfree demoL demoState 12288 = .error .panic ∨
      ∃ s1 es, kfree demoL demoState 12288 = .ok s1 ∧
        s1.lockLog = demoState.lockLog ++ es ∧
        neverBoth es ∧ balanced es ∧ s1.kmem_lock = false ∧ s1.ref_lock = false) :=
  ⟨rfl, rfl, (flat_lock_discipline demoL demoState 12288 rfl rfl).1,
    (flat_lock_discipline demoL demoState 12288 rfl rfl).2.2⟩

end Kalloc
